import Mathlib

/-!
Verification development for the procedural area generation pipeline of the
sulis repository (`sulis_module/src/generator/area_generator.rs`).

The definitions below are a shallow embedding of that source file.  Types and
functions that the source file uses but that are defined elsewhere in the
repository (`ReproducibleRandom`, `Maze`, `GenModel`, `TilesModel`,
`WeightedList`, the content-generation passes) are modelled from the
specification; each such definition carries a doc comment starting with
`Modelled from the spec:`.  Everything else is translated directly from the
source.
-/

set_option maxHeartbeats 1000000

namespace Sulis

/-- Integer (x, y) coordinate, as in `sulis_core::util::Point`. -/
structure Point where
  x : Int
  y : Int
deriving DecidableEq, Repr

/-- Tagged variant identifying what occupies a coarse maze cell
(`TileKind` in the generator module): `Wall`, `Corridor(region)`,
`Room { region }`. -/
inductive TileKind where
  | Wall : TileKind
  | Corridor : Nat → TileKind
  | Room : Nat → TileKind
deriving DecidableEq, Repr

/-- Modelled from the spec: `ReproducibleRandom` (not under src/) is an
externally supplied seed-reproducible generator exposing `gen(low, high)`
(inclusive/exclusive integer draw) with the contract that an identical seed
and identical call sequence yield an identical draw sequence.  It is modelled
as a deterministic stream of raw draws: the seed is the stream, and each
`gen` call consumes one raw value and maps it into `[low, high)`. -/
structure ReproducibleRandom where
  stream : List Nat
deriving DecidableEq, Repr

/-- Modelled from the spec: one `gen(low, high)` draw consuming the head of
the stream; an exhausted stream yields `low`. -/
def ReproducibleRandom.gen (r : ReproducibleRandom) (low high : Nat) :
    Nat × ReproducibleRandom :=
  match r.stream with
  | [] => (low, ⟨[]⟩)
  | v :: rest => (low + v % (high - low), ⟨rest⟩)

/-- The fields of `RoomParams` that `area_generator.rs` reads. -/
structure RoomParams where
  invert : Bool
  corridor_edge_overfill_chance : Nat
  room_edge_overfill_chance : Nat
deriving DecidableEq, Repr

/-- The `[Option<TileKind>; 5]` array returned by `Maze::neighbors`:
index 0 is the cell itself, indices 1-4 are the N/E/S/W neighbors. -/
structure Neighbors where
  n0 : Option TileKind
  n1 : Option TileKind
  n2 : Option TileKind
  n3 : Option TileKind
  n4 : Option TileKind
deriving DecidableEq, Repr

/-- Array indexing on the neighbor array (the source only indexes 0-4). -/
def Neighbors.get (nb : Neighbors) : Nat → Option TileKind
  | 0 => nb.n0
  | 1 => nb.n1
  | 2 => nb.n2
  | 3 => nb.n3
  | 4 => nb.n4
  | _ => none

/-- Direct translation of the free function `is_rough_edge` in
`area_generator.rs` (lines 278-297). -/
def is_rough_edge (neighbors : Neighbors) (index : Nat)
    (edge_choice : Option Nat) : Bool :=
  if neighbors.get index ≠ some TileKind.Wall then false
  else
    match neighbors.n0 with
    | some (TileKind.Room _) =>
      match edge_choice with
      | none => false
      | some _ => true
    | some (TileKind.Corridor _) =>
      match edge_choice with
      | none => false
      | some choice => choice == index
    | _ => false

/-- The mutable state that `carve_wall` threads: the random source and the
per-region `region_overfill_edges` memo table of the `GenModel`
(an association list keyed by region id). -/
structure CarveState where
  rand : ReproducibleRandom
  region_overfill_edges : List (Nat × Nat)
deriving DecidableEq, Repr

/-- The `edge_choice` computation at the top of `carve_wall`
(lines 202-220).  For a corridor cell it rolls
`rand.gen(1, 101) < corridor_edge_overfill_chance` and, on success, uses
`region_overfill_edges.entry(region).or_insert(rand.gen(1, 5))`; note that
Rust evaluates the `or_insert` argument unconditionally, so the fresh draw is
consumed even on a memo hit.  For a room cell it rolls
`rand.gen(1, 101) < room_edge_overfill_chance` and, on success, draws a fresh
`rand.gen(1, 5)` without touching the memo table. -/
def carveEdgeChoice (rp : RoomParams) (st : CarveState)
    (self : Option TileKind) : Option Nat × CarveState :=
  match self with
  | some (TileKind.Corridor region) =>
    let (roll, r1) := st.rand.gen 1 101
    if roll < rp.corridor_edge_overfill_chance then
      let (fresh, r2) := r1.gen 1 5
      match st.region_overfill_edges.lookup region with
      | some e => (some e, ⟨r2, st.region_overfill_edges⟩)
      | none => (some fresh, ⟨r2, (region, fresh) :: st.region_overfill_edges⟩)
    else (none, ⟨r1, st.region_overfill_edges⟩)
  | some (TileKind.Room _) =>
    let (roll, r1) := st.rand.gen 1 101
    if roll < rp.room_edge_overfill_chance then
      let (fresh, r2) := r1.gen 1 5
      (some fresh, ⟨r2, st.region_overfill_edges⟩)
    else (none, ⟨r1, st.region_overfill_edges⟩)
  | _ => (none, st)

/-- One recorded `TilesModel::set_wall(x, y, elevation, wall_kind)` call. -/
structure SetWall where
  x : Int
  y : Int
  elev : Nat
  wallKind : Option Nat
deriving DecidableEq, Repr

/-- The value sequence of the Rust iterator `(start..stop).step_by(step)`:
`start, start + step, start + 2*step, ...` while `< stop`
(used by the border and center loops of `carve_wall`). -/
def stepByRange (start stop step : Int) : List Int :=
  (List.range (((stop - start).toNat + step.toNat - 1) / step.toNat)).map
    fun i : Nat => start + step * (i : Int)

/-- The sequence of `set_wall` calls that the body of `carve_wall`
(lines 222-275) performs once `edge_choice` is fixed: the four border loops,
then the four corner conditionals, then the unconditional center loop, in
source order.  `mx` is the `max` argument. -/
def carveCalls (nb : Neighbors) (ec : Option Nat) (offset step mx : Point)
    (elev : Nat) (wk : Option Nat) : List SetWall :=
  (if is_rough_edge nb 1 ec then [] else
    (stepByRange step.x (mx.x - step.x) step.x).map
      fun x => (⟨x + offset.x, offset.y, elev, wk⟩ : SetWall)) ++
  (if is_rough_edge nb 2 ec then [] else
    (stepByRange step.y (mx.y - step.y) step.y).map
      fun y => (⟨offset.x + mx.x - step.x, y + offset.y, elev, wk⟩ : SetWall)) ++
  (if is_rough_edge nb 3 ec then [] else
    (stepByRange step.x (mx.x - step.x) step.x).map
      fun x => (⟨x + offset.x, offset.y + mx.y - step.y, elev, wk⟩ : SetWall)) ++
  (if is_rough_edge nb 4 ec then [] else
    (stepByRange step.y (mx.y - step.y) step.y).map
      fun y => (⟨offset.x, y + offset.y, elev, wk⟩ : SetWall)) ++
  (if is_rough_edge nb 1 ec || is_rough_edge nb 2 ec then [] else
    [(⟨offset.x + mx.x - step.x, offset.y, elev, wk⟩ : SetWall)]) ++
  (if is_rough_edge nb 2 ec || is_rough_edge nb 3 ec then [] else
    [(⟨offset.x + mx.x - step.x, offset.y + mx.y - step.y, elev, wk⟩ : SetWall)]) ++
  (if is_rough_edge nb 3 ec || is_rough_edge nb 4 ec then [] else
    [(⟨offset.x, offset.y + mx.y - step.y, elev, wk⟩ : SetWall)]) ++
  (if is_rough_edge nb 4 ec || is_rough_edge nb 1 ec then [] else
    [(⟨offset.x, offset.y, elev, wk⟩ : SetWall)]) ++
  (stepByRange step.y (mx.y - step.y) step.y).foldr
    (fun y acc =>
      ((stepByRange step.x (mx.x - step.x) step.x).map
        fun x => (⟨x + offset.x, y + offset.y, elev, wk⟩ : SetWall)) ++ acc)
    []

/-- `AreaGenerator::carve_wall` (lines 199-275): computes `edge_choice` from
the cell's own tile kind, then issues the border/corner/center `set_wall`
calls.  Returns the recorded calls and the updated mutable state. -/
def carve_wall (rp : RoomParams) (st : CarveState) (nb : Neighbors)
    (offset step mx : Point) (elev : Nat) (wk : Option Nat) :
    List SetWall × CarveState :=
  let (ec, st1) := carveEdgeChoice rp st nb.n0
  (carveCalls nb ec offset step mx elev wk, st1)

/-- Modelled from the spec: `WeightedList<T>` (not under src/) is an ordered
sequence of resolved entries with weights, built at construction time. -/
structure WeightedList (α : Type) where
  entries : List (α × Nat)
deriving DecidableEq, Repr

/-- Index of the entry selected by a raw value `v` under weight-proportional
selection: walk the weight list in order, subtracting. -/
def weightedIndex : List Nat → Nat → Nat
  | [], _ => 0
  | w :: ws, v => if v < w then 0 else weightedIndex ws (v - w) + 1

/-- Modelled from the spec: `WeightedList::pick_index` (not under src/)
performs a weighted draw visiting the weights in their fixed order; an empty
or all-zero-weight list yields `none` deterministically.  The `TilesModel`
context argument of the source is not consulted by the model. -/
def WeightedList.pick_index {α : Type} (wl : WeightedList α)
    (r : ReproducibleRandom) : Option Nat × ReproducibleRandom :=
  let total := (wl.entries.map Prod.snd).sum
  if total = 0 then (none, r)
  else
    let (v, r1) := r.gen 0 total
    (some (weightedIndex (wl.entries.map Prod.snd) v), r1)

/-- The `WallKinds` wrapper held by `AreaGenerator`. -/
structure WallKinds where
  kinds : WeightedList Nat
deriving DecidableEq, Repr

/-- One weighted draw over the wall kinds
(`self.wall_kinds.pick_index(&mut model.rand, &model.model)`). -/
def WallKinds.pick_index (wk : WallKinds) (r : ReproducibleRandom) :
    Option Nat × ReproducibleRandom :=
  wk.kinds.pick_index r

/-- The mutable state threaded by `pick_wall_kind`: the random source and the
`mapped` memo table of `add_walls` (region id to chosen wall kind index). -/
structure WallPickState where
  rand : ReproducibleRandom
  mapped : List (Nat × Option Nat)
deriving DecidableEq, Repr

/-- `AreaGenerator::pick_wall_kind` (lines 147-161): in non-invert mode
returns `(0, None)` untouched; in invert mode returns the memoized wall kind
for the region if present (without drawing), otherwise draws one via
`WallKinds::pick_index`, memoizes it and returns it with elevation 1. -/
def pick_wall_kind (wk : WallKinds) (invert : Bool) (region : Nat)
    (st : WallPickState) : (Nat × Option Nat) × WallPickState :=
  if !invert then ((0, none), st)
  else
    match st.mapped.lookup region with
    | some v => ((1, v), st)
    | none =>
      let (wall_index, r1) := wk.pick_index st.rand
      ((1, wall_index), ⟨r1, (region, wall_index) :: st.mapped⟩)

/-- A sequence of `pick_wall_kind` calls threaded through the shared state,
as performed by the `add_walls` loop over maze cells. -/
def runPicks (wk : WallKinds) (invert : Bool) (st : WallPickState) :
    List Nat → List (Nat × Option Nat) × WallPickState
  | [] => ([], st)
  | r :: rest =>
    let (out, st1) := pick_wall_kind wk invert r st
    let (outs, stF) := runPicks wk invert st1 rest
    (out :: outs, stF)

/-- A sequence of `edge_choice` computations threaded through the shared
state, as performed by successive `carve_wall` calls (each list element is
the `neighbors[0]` self-kind of one visited cell). -/
def runEdgeChoices (rp : RoomParams) (st : CarveState) :
    List (Option TileKind) → List (Option Nat) × CarveState
  | [] => ([], st)
  | s :: rest =>
    let (out, st1) := carveEdgeChoice rp st s
    let (outs, stF) := runEdgeChoices rp st1 rest
    (out :: outs, stF)

/-- The result of a wrapping `i32` arithmetic operation: two's-complement
wrap-around into `[-2^31, 2^31)`.  Release builds of the source wrap like
this; debug builds panic on the overflow itself, so the two agree exactly
when no wrap occurs. -/
def wrap32 (i : Int) : Int :=
  (i + 2 ^ 31) % 2 ^ 32 - 2 ^ 31

/-- The Rust cast `as usize` of an `i32` value: sign extension to 64 bits
followed by two's-complement reinterpretation, i.e. wrap-around modulo
2^64. -/
def castUsize (i : Int) : Nat :=
  (i % (2 ^ 64 : Int)).toNat

/-- The per-layer loop body of `AreaGenerator::create_layers`
(lines 133-139): starting from `vec![Vec::new(); (width * height) as usize]`,
each placement is skipped when `p.x >= width || p.y >= height`, otherwise
pushed at index `(p.x + p.y * width) as usize`.  The index expression is
`i32` arithmetic (each operation wrapping at 2^31 in release builds) cast to
`usize`; an index outside the vector is a panic, modelled as `none`
(absorbing). -/
def layerFill (width height : Int) :
    List (Point × Nat) → Option (List (List Nat)) → Option (List (List Nat))
  | [], acc => acc
  | (p, t) :: rest, acc =>
    let acc1 : Option (List (List Nat)) :=
      match acc with
      | none => none
      | some tiles =>
        if p.x ≥ width ∨ p.y ≥ height then some tiles
        else
          let index := castUsize (wrap32 (p.x + wrap32 (p.y * width)))
          if h : index < tiles.length then
            some (tiles.set index (tiles.get ⟨index, h⟩ ++ [t]))
          else none
    layerFill width height rest acc1

/-- The tile grid that `create_layers` builds for one layer from its list of
placements: the allocation size `(width * height) as usize` is an `i32`
multiplication (wrapping at 2^31 in release builds) cast to `usize`; `none`
models the index-out-of-bounds panic. -/
def create_layers_one (width height : Int) (ps : List (Point × Nat)) :
    Option (List (List Nat)) :=
  layerFill width height ps
    (some (List.replicate (castUsize (wrap32 (width * height))) []))

/-- Modelled from the spec: the `Maze` (not under src/) owns a
`width × height` grid of coarse cells classified by `TileKind`
(row-major cell list). -/
structure Maze where
  width : Nat
  height : Nat
  cells : List TileKind
deriving DecidableEq, Repr

/-- Modelled from the spec: `Maze::new(width, height)` creates an empty
region grid (all walls). -/
def Maze.new (w h : Nat) : Maze :=
  ⟨w, h, List.replicate (w * h) TileKind.Wall⟩

/-- The `TileKind` of the coarse cell at `(x, y)`; out-of-range coordinates
yield `none`. -/
def Maze.cell (m : Maze) (x y : Int) : Option TileKind :=
  if 0 ≤ x ∧ x < (m.width : Int) ∧ 0 ≤ y ∧ y < (m.height : Int) then
    m.cells[x.toNat + y.toNat * m.width]?
  else none

/-- Modelled from the spec: `Maze::region(x, y)` returns the region id of a
room or corridor cell, `None` for walls and out-of-range coordinates. -/
def Maze.region (m : Maze) (x y : Int) : Option Nat :=
  match m.cell x y with
  | some (TileKind.Corridor r) => some r
  | some (TileKind.Room r) => some r
  | _ => none

/-- Modelled from the spec: `Maze::neighbors(x, y)` returns the cell itself
(index 0) and its N/E/S/W neighbors (indices 1-4). -/
def Maze.neighbors (m : Maze) (x y : Int) : Neighbors :=
  ⟨m.cell x y, m.cell x (y - 1), m.cell (x + 1) y, m.cell x (y + 1),
    m.cell (x - 1) y⟩

/-- A random per-cell fill of `n` coarse cells, one draw per cell
(0 wall, 1 corridor, 2 room; non-wall cells get the cell count as a region
id). -/
def fillCells : Nat → ReproducibleRandom → List TileKind × ReproducibleRandom
  | 0, r => ([], r)
  | n + 1, r =>
    let (v, r1) := r.gen 0 3
    let k := if v = 0 then TileKind.Wall
      else if v = 1 then TileKind.Corridor n else TileKind.Room n
    let (rest, r2) := fillCells n r1
    (k :: rest, r2)

/-- Forcing one anchor cell open: an in-range `Wall` cell becomes a corridor
cell; anything else is left alone. -/
def Maze.forceOpen (m : Maze) (p : Point) : Maze :=
  if 0 ≤ p.x ∧ p.x < (m.width : Int) ∧ 0 ≤ p.y ∧ p.y < (m.height : Int) then
    let idx := p.x.toNat + p.y.toNat * m.width
    if m.cells[idx]? = some TileKind.Wall then
      ⟨m.width, m.height, m.cells.set idx (TileKind.Corridor 0)⟩
    else m
  else m

/-- Modelled from the spec: `Maze::generate(room_params, rand, open_locs)`
(not under src/) fills the grid with rooms and corridors from the random
source and guarantees every supplied open anchor ends non-`Wall`.  The
room-and-corridor carving algorithm and its bounded-retry failure path are
abstracted as a per-cell random fill followed by forcing each anchor open. -/
def Maze.generate (m : Maze) (rand : ReproducibleRandom)
    (open_locs : List Point) : Maze × ReproducibleRandom :=
  let (cs, r1) := fillCells (m.width * m.height) rand
  let m1 : Maze := ⟨m.width, m.height, cs⟩
  (open_locs.foldl (fun mz p => mz.forceOpen p) m1, r1)

/-- A tile resolved from the module: its id and the id of the layer it is
placed on. -/
structure Tile where
  id : Nat
  layer_id : String
deriving DecidableEq, Repr

/-- Appends a placement to the named layer, creating the layer at the end of
the list (insertion order) when absent. -/
def addToLayer (layers : List (String × List (Point × Nat))) (lid : String)
    (p : Point) (t : Nat) : List (String × List (Point × Nat)) :=
  match layers with
  | [] => [(lid, [(p, t)])]
  | (id, ps) :: rest =>
    if id = lid then (id, ps ++ [(p, t)]) :: rest
    else (id, ps) :: addToLayer rest lid p t

/-- Modelled from the spec: the `TilesModel` (not under src/) maps layer
names to placement lists (insertion order preserved) and records the
`set_wall` calls of the carving pass; `grid_width`/`grid_height` are the fine
grid step sizes. -/
structure TilesModel where
  grid_width : Int
  grid_height : Int
  width : Int
  height : Int
  wallCalls : List SetWall
  layers : List (String × List (Point × Nat))
deriving DecidableEq, Repr

/-- `TilesModel::set_wall(x, y, elevation, wall_kind)`, recorded as a call. -/
def TilesModel.set_wall (m : TilesModel) (x y : Int) (elev : Nat)
    (wk : Option Nat) : TilesModel :=
  { m with wallCalls := m.wallCalls ++ [⟨x, y, elev, wk⟩] }

/-- `TilesModel::add(tile, x, y)`: adds the tile to its layer. -/
def TilesModel.add (m : TilesModel) (t : Tile) (x y : Int) : TilesModel :=
  { m with layers := addToLayer m.layers t.layer_id ⟨x, y⟩ t.id }

/-- Modelled from the spec: `TilesModel::check_add_wall_border` (not under
src/) derives border tiles from the wall state; modelled as adding one border
tile on the wall layer wherever an elevated wall was set. -/
def TilesModel.check_add_wall_border (m : TilesModel) (x y : Int) : TilesModel :=
  if m.wallCalls.any fun c => c.x = x ∧ c.y = y ∧ 0 < c.elev then
    m.add ⟨0, "wall"⟩ x y
  else m

/-- Modelled from the spec: the terrain/terrain-border auto-derivation of
`TilesModel` (not under src/), a deterministic function of the model state;
modelled as a no-op on cells without wall calls and a terrain tile
otherwise. -/
def TilesModel.check_add_terrain (m : TilesModel) (x y : Int) : TilesModel :=
  if m.wallCalls.any fun c => c.x = x ∧ c.y = y ∧ c.elev = 0 then
    m.add ⟨1, "terrain"⟩ x y
  else m

/-- Modelled from the spec: `GenModel` (not under src/) couples the
`TilesModel` with the random source, the coarse sizing and the per-region
overfill memo. -/
structure GenModel where
  model : TilesModel
  rand : ReproducibleRandom
  total_grid_size : Point
  region_overfill_edges : List (Nat × Nat)
deriving DecidableEq, Repr

/-- Modelled from the spec: `GenModel::new(width, height, rand, gw, gh)`.
The coarse cell size in fine tiles (`total_grid_size`) is fixed at three grid
units per coarse cell, the exact multiplier not being recoverable from the
source under src/. -/
def GenModel.new (width height : Int) (rand : ReproducibleRandom)
    (gw gh : Int) : GenModel :=
  { model := ⟨gw, gh, width, height, [], []⟩
    rand := rand
    total_grid_size := ⟨3 * gw, 3 * gh⟩
    region_overfill_edges := [] }

/-- Modelled from the spec: fine-to-coarse coordinate conversion, an affine
mapping with `grid_width`/`grid_height` as the cell size. -/
def GenModel.to_region_coords (gm : GenModel) (x y : Int) : Int × Int :=
  (x / gm.model.grid_width, y / gm.model.grid_height)

/-- Modelled from the spec: coarse-to-fine coordinate conversion, inverse
affine mapping of `to_region_coords`. -/
def GenModel.from_region_coords (gm : GenModel) (rx ry : Int) : Int × Int :=
  (rx * gm.model.grid_width, ry * gm.model.grid_height)

/-- Modelled from the spec: the coarse region grid size of the area. -/
def GenModel.region_size (gm : GenModel) : Int × Int :=
  (gm.model.width / gm.model.grid_width, gm.model.height / gm.model.grid_height)

/-- Row-major list of points built from a y-list and an x-list. -/
def rowMajor (ys xs : List Int) : List Point :=
  ys.foldr (fun y acc => (xs.map fun x => Point.mk x y) ++ acc) []

/-- Modelled from the spec: `GenModel::tiles()` (not under src/), the
row-major iterator over fine tile positions stepping by the grid size. -/
def GenModel.tilesList (gm : GenModel) : List Point :=
  rowMajor (stepByRange 0 gm.model.height gm.model.grid_height)
    (stepByRange 0 gm.model.width gm.model.grid_width)

/-- The error values the pipeline can produce (`std::io::Error` in the
source, with the distinguished unresolved-reference construction failure). -/
inductive GenError where
  | unresolvedReference : String → String → GenError
  | layerIndexOutOfRange : GenError
deriving DecidableEq, Repr

/-- Modelled from the spec: `WeightedList::new(entries, kind_label, resolver)`
(not under src/) maps each raw id to a resolved entity via the lookup
function, failing with `UnresolvedReference` naming the missing id and the
kind label as soon as a resolution fails. -/
def WeightedList.new {α : Type} (ids : List (String × Nat)) (kind : String)
    (resolver : String → Option α) : Except GenError (WeightedList α) :=
  match ids with
  | [] => .ok ⟨[]⟩
  | (id, w) :: rest =>
    match resolver id with
    | none => .error (.unresolvedReference kind id)
    | some e =>
      match WeightedList.new rest kind resolver with
      | .error err => .error err
      | .ok tail => .ok ⟨(e, w) :: tail.entries⟩

/-- Modelled from the spec: the module lookup collaborator, supplying entity
resolution by id for each kind of named reference. -/
structure Module where
  wallKind : String → Option Nat
  terrainKind : String → Option Nat
  prop : String → Option Nat
  encounter : String → Option Nat
  feature : String → Option Nat
  transition : String → Option Nat

/-- The resolver the module uses for a given reference-kind label. -/
def moduleResolves (m : Module) (kind id : String) : Option Nat :=
  if kind = "WallKind" then m.wallKind id
  else if kind = "Terrain" then m.terrainKind id
  else if kind = "Prop" then m.prop id
  else if kind = "Encounter" then m.encounter id
  else if kind = "Feature" then m.feature id
  else if kind = "Transition" then m.transition id
  else none

/-- The raw builder consumed by `AreaGenerator::new`: the id of the
generator, the grid sizing, the room parameters and the weighted id lists of
every named reference (each of which must resolve against the module). -/
structure GeneratorBuilder where
  id : String
  grid_width : Nat
  grid_height : Nat
  rooms : RoomParams
  wall_kinds : List (String × Nat)
  terrain : List (String × Nat)
  props : List (String × Nat)
  encounters : List (String × Nat)
  features : List (String × Nat)
  transitions : List (String × Nat)

/-- `AreaGenerator` (lines 28-39): the immutable, fully resolved parameter
set built once per area template.  The parameter objects other than
`RoomParams` are modelled from the spec as resolved weighted lists, their
constructors not being under src/. -/
structure AreaGenerator where
  id : String
  wall_kinds : WallKinds
  grid_width : Nat
  grid_height : Nat
  room_params : RoomParams
  terrain_params : WeightedList Nat
  prop_params : WeightedList Nat
  encounter_params : WeightedList Nat
  feature_params : WeightedList Nat
  transition_params : WeightedList Nat

/-- `AreaGenerator::new(builder, module)` (lines 42-58): resolves every named
reference in the builder against the module, in source order (wall kinds,
terrain, props, encounters, features, transitions), propagating the first
resolution failure; only when all succeed is the generator constructed.  The
`Params` constructors are modelled from the spec as reference resolution via
`WeightedList::new`, their sources not being under src/. -/
def AreaGenerator.new (b : GeneratorBuilder) (m : Module) :
    Except GenError AreaGenerator := do
  let wall_kinds_list ← WeightedList.new b.wall_kinds "WallKind" m.wallKind
  let terrain ← WeightedList.new b.terrain "Terrain" m.terrainKind
  let props ← WeightedList.new b.props "Prop" m.prop
  let encounters ← WeightedList.new b.encounters "Encounter" m.encounter
  let features ← WeightedList.new b.features "Feature" m.feature
  let transitions ← WeightedList.new b.transitions "Transition" m.transition
  pure
    { id := b.id
      wall_kinds := ⟨wall_kinds_list⟩
      grid_width := b.grid_width
      grid_height := b.grid_height
      room_params := b.rooms
      terrain_params := terrain
      prop_params := props
      encounter_params := encounters
      feature_params := features
      transition_params := transitions }

/-- The loop body of `add_walls` for one coarse cell (lines 181-196): wall
cells are skipped; otherwise the wall kind is picked (memoized per region in
invert mode) and the cell block is carved via `carve_wall`.  The fold state
is the `GenModel` plus the `mapped` memo of `pick_wall_kind`. -/
def addWallsStep (g : AreaGenerator) (maze : Maze)
    (st : GenModel × List (Nat × Option Nat)) (p : Point) :
    GenModel × List (Nat × Option Nat) :=
  let (gm, mapped) := st
  match maze.region p.x p.y with
  | none => (gm, mapped)
  | some region =>
    let nb := maze.neighbors p.x p.y
    let (ek, wst) := pick_wall_kind g.wall_kinds g.room_params.invert region
      ⟨gm.rand, mapped⟩
    let (off, cst) :=
      (gm.from_region_coords p.x p.y,
        (⟨wst.rand, gm.region_overfill_edges⟩ : CarveState))
    let (calls, cst1) := carve_wall g.room_params cst nb ⟨off.1, off.2⟩
      ⟨gm.model.grid_width, gm.model.grid_height⟩ gm.total_grid_size ek.1 ek.2
    ({ gm with
        rand := cst1.rand
        region_overfill_edges := cst1.region_overfill_edges
        model := calls.foldl (fun m c => m.set_wall c.x c.y c.elev c.wallKind)
          gm.model },
      wst.mapped)

/-- `AreaGenerator::add_walls` (lines 163-197): in invert mode every fine
tile starts cleared (`set_wall 0 None`), otherwise one global wall kind is
drawn and every fine tile starts filled with it; then every coarse maze cell
is visited in row-major order and carved. -/
def AreaGenerator.add_walls (g : AreaGenerator) (gm0 : GenModel)
    (maze : Maze) : GenModel :=
  let gm :=
    if g.room_params.invert then
      { gm0 with
          model := gm0.tilesList.foldl
            (fun m p => m.set_wall p.x p.y 0 none) gm0.model }
    else
      let (wall_index, r1) := g.wall_kinds.pick_index gm0.rand
      { gm0 with
          rand := r1
          model := gm0.tilesList.foldl
            (fun m p => m.set_wall p.x p.y 1 wall_index) gm0.model }
  let cells := rowMajor ((List.range maze.height).map Int.ofNat)
    ((List.range maze.width).map Int.ofNat)
  (cells.foldl (addWallsStep g maze) (gm, [])).1

/-- A finalized tile layer (`Layer` in the area module): dimensions, id and
the per-cell tile stacks. -/
structure Layer where
  width : Int
  height : Int
  id : String
  tiles : List (List Nat)
deriving DecidableEq, Repr

/-- The layer loop of `AreaGenerator::create_layers` (lines 130-145) over the
ordered layer list of the `TilesModel`. -/
def createLayersList (width height : Int) :
    List (String × List (Point × Nat)) → Except GenError (List Layer)
  | [] => .ok []
  | (id, ps) :: rest =>
    match create_layers_one width height ps with
    | none => .error .layerIndexOutOfRange
    | some tiles =>
      match createLayersList width height rest with
      | .error e => .error e
      | .ok out => .ok (⟨width, height, id, tiles⟩ :: out)

/-- `AreaGenerator::create_layers` (lines 130-145): converts the accumulated
`TilesModel` into the final `Layer` sequence. -/
def create_layers (width height : Int) (model : TilesModel) :
    Except GenError (List Layer) :=
  createLayersList width height model.layers

/-- A placed prop or encounter descriptor (entity index and position). -/
structure PlacedObject where
  id : Nat
  pos : Point
deriving DecidableEq, Repr

/-- Modelled from the spec: one content-generation pass family
(`PropGen`/`EncounterGen`, not under src/): repeats `passes` times, each pass
drawing an entity by weighted selection and a position from the random
source, accumulating placed-object descriptors. -/
def placementPasses (wl : WeightedList Nat) (width height : Int)
    (gm : GenModel) : Nat → List PlacedObject × GenModel
  | 0 => ([], gm)
  | n + 1 =>
    let (pick, r1) := wl.pick_index gm.rand
    let (vx, r2) := r1.gen 0 width.toNat
    let (vy, r3) := r2.gen 0 height.toNat
    let (rest, gmF) := placementPasses wl width height { gm with rand := r3 } n
    match pick with
    | none => (rest, gmF)
    | some i => (⟨i, ⟨(vx : Int), (vy : Int)⟩⟩ :: rest, gmF)

/-- Modelled from the spec: the `TerrainGen` pass (not under src/), a
deterministic pass drawing one terrain kind and adding its tile. -/
def terrainPass (wl : WeightedList Nat) (gm : GenModel) : GenModel :=
  let (pick, r1) := wl.pick_index gm.rand
  match pick with
  | none => { gm with rand := r1 }
  | some i => { gm with rand := r1, model := gm.model.add ⟨i, "terrain"⟩ 0 0 }

/-- Modelled from the spec: the `FeatureGen` pass (not under src/), a
deterministic pass drawing one feature and adding its tile. -/
def featurePass (wl : WeightedList Nat) (gm : GenModel) : GenModel :=
  let (pick, r1) := wl.pick_index gm.rand
  match pick with
  | none => { gm with rand := r1 }
  | some i => { gm with rand := r1, model := gm.model.add ⟨i, "feature"⟩ 0 0 }

/-- The transition builders handed to `generate`; only the `from` point is
read there (named `fromLoc` here, `from` being reserved). -/
structure TransitionBuilder where
  fromLoc : Point
deriving DecidableEq, Repr

/-- The open anchor locations collected at the top of `generate`
(lines 81-84): every transition's from-point converted to coarse region
coordinates. -/
def openLocs (gm : GenModel) (transitions : List TransitionBuilder) :
    List Point :=
  transitions.map fun t =>
    let c := gm.to_region_coords t.fromLoc.x t.fromLoc.y
    ⟨c.1, c.2⟩

/-- The pass counts of `GeneratorParams` that `generate` reads. -/
structure GeneratorParams where
  prop_passes : Nat
  encounter_passes : Nat
deriving DecidableEq, Repr

/-- The finished output of one `generate()` call. -/
structure GeneratorOutput where
  layers : List Layer
  props : List PlacedObject
  encounters : List PlacedObject
deriving DecidableEq, Repr

/-- `AreaGenerator::generate` (lines 68-128): builds the `GenModel` and the
maze, reserves the transition anchors as open locations, generates the maze,
carves walls, runs the terrain pass, adds the extra tiles and the derived
border/terrain tiles, snapshots the layers, runs the feature, prop and
encounter passes and snapshots the final layers.  The content passes are
modelled from the spec (their sources are not under src/). -/
def AreaGenerator.generate (g : AreaGenerator) (width height : Int)
    (rand : ReproducibleRandom) (params : GeneratorParams)
    (transitions : List TransitionBuilder)
    (tiles_to_add : List (Tile × Int × Int)) :
    Except GenError GeneratorOutput := do
  let model0 := GenModel.new width height rand
    (g.grid_width : Int) (g.grid_height : Int)
  let rs := model0.region_size
  let maze0 := Maze.new rs.1.toNat rs.2.toNat
  let open_locs := openLocs model0 transitions
  let (maze, r1) := maze0.generate model0.rand open_locs
  let model1 := { model0 with rand := r1 }
  let model2 := g.add_walls model1 maze
  let model3 := terrainPass g.terrain_params model2
  let model4 := tiles_to_add.foldl
    (fun m tx => { m with model := m.model.add tx.1 tx.2.1 tx.2.2 }) model3
  let model5 := model4.tilesList.foldl
    (fun m p =>
      { m with model := (m.model.check_add_wall_border p.x p.y).check_add_terrain p.x p.y })
    model4
  let _layers ← create_layers width height model5.model
  let model6 := featurePass g.feature_params model5
  let (props, model7) := placementPasses g.prop_params width height model6
    params.prop_passes
  let (encounters, model8) := placementPasses g.encounter_params width height
    model7 params.encounter_passes
  let layers2 ← create_layers width height model8.model
  pure ⟨layers2, props, encounters⟩

/-! ## Helper lemmas -/

theorem mem_ite_nil {α : Type} {b : Bool} {a : α} {l : List α} :
    a ∈ (if b then ([] : List α) else l) ↔ b = false ∧ a ∈ l := by
  cases b <;> simp

theorem mem_foldr_append {α β : Type} {f : β → List α} {l : List β} {a : α} :
    a ∈ l.foldr (fun y acc => f y ++ acc) [] ↔ ∃ y ∈ l, a ∈ f y := by
  induction l with
  | nil => simp
  | cons y ys ih => simp [List.mem_append, ih]

theorem stepByRange_bounds {start stop step x : Int} (hstep : 0 < step)
    (hx : x ∈ stepByRange start stop step) : start ≤ x ∧ x < stop := by
  unfold stepByRange at hx
  obtain ⟨i, hmem, rfl⟩ := List.exists_of_mem_map
    (l := List.range (((stop - start).toNat + step.toNat - 1) / step.toNat))
    (f := fun i : Nat => start + step * (i : Int)) hx
  have hi' := List.mem_range.1 hmem
  have hstn0 : 0 < step.toNat := by omega
  have hle := (Nat.le_div_iff_mul_le hstn0).1 (Nat.succ_le_of_lt hi')
  have hlt : i * step.toNat < (stop - start).toNat := by
    have h3 : i.succ * step.toNat = i * step.toNat + step.toNat :=
      Nat.succ_mul i step.toNat
    generalize i.succ * step.toNat = A at hle h3
    generalize i * step.toNat = m at h3 ⊢
    omega
  have hcast : ((step.toNat : Int)) = step := Int.toNat_of_nonneg hstep.le
  have hlen : (((stop - start).toNat : Int)) = stop - start := by
    refine Int.toNat_of_nonneg ?_
    by_contra hneg
    have : (stop - start).toNat = 0 := by omega
    omega
  have h3 : (i : Int) * step < stop - start := by
    rw [← hcast, ← hlen]
    exact_mod_cast hlt
  have h4 : step * (i : Int) = (i : Int) * step := mul_comm _ _
  constructor
  · have h5 : 0 ≤ step * (i : Int) :=
      mul_nonneg hstep.le (Int.ofNat_nonneg i)
    linarith
  · linarith

theorem runEdgeChoices_cons (rp : RoomParams) (st : CarveState)
    (s : Option TileKind) (rest : List (Option TileKind)) :
    runEdgeChoices rp st (s :: rest)
      = ((carveEdgeChoice rp st s).1
            :: (runEdgeChoices rp (carveEdgeChoice rp st s).2 rest).1,
         (runEdgeChoices rp (carveEdgeChoice rp st s).2 rest).2) := by
  cases h : carveEdgeChoice rp st s with
  | mk out st1 =>
    cases h2 : runEdgeChoices rp st1 rest with
    | mk outs stF => simp [runEdgeChoices, h, h2]

theorem runPicks_cons (wk : WallKinds) (invert : Bool) (st : WallPickState)
    (r : Nat) (rest : List Nat) :
    runPicks wk invert st (r :: rest)
      = ((pick_wall_kind wk invert r st).1
            :: (runPicks wk invert (pick_wall_kind wk invert r st).2 rest).1,
         (runPicks wk invert (pick_wall_kind wk invert r st).2 rest).2) := by
  cases h : pick_wall_kind wk invert r st with
  | mk out st1 =>
    cases h2 : runPicks wk invert st1 rest with
    | mk outs stF => simp [runPicks, h, h2]

theorem carveEdgeChoice_memo_mono {rp : RoomParams} {st : CarveState}
    {self : Option TileKind} {q v : Nat}
    (h : st.region_overfill_edges.lookup q = some v) :
    (carveEdgeChoice rp st self).2.region_overfill_edges.lookup q = some v := by
  match self with
  | none => simpa [carveEdgeChoice] using h
  | some TileKind.Wall => simpa [carveEdgeChoice] using h
  | some (TileKind.Room r) =>
    by_cases hr : (st.rand.gen 1 101).1 < rp.room_edge_overfill_chance <;>
      simpa [carveEdgeChoice, hr] using h
  | some (TileKind.Corridor r) =>
    by_cases hr : (st.rand.gen 1 101).1 < rp.corridor_edge_overfill_chance
    · cases hl : st.region_overfill_edges.lookup r with
      | some e => simpa [carveEdgeChoice, hr, hl] using h
      | none =>
        have hq : q ≠ r := by
          intro he; rw [he] at h; rw [h] at hl; exact Option.noConfusion hl
        have hbeq : (q == r) = false := beq_eq_false_iff_ne.2 hq
        simp [carveEdgeChoice, hr, hl, List.lookup, hbeq, h]
    · simpa [carveEdgeChoice, hr] using h

theorem carveEdgeChoice_corridor_sound {rp : RoomParams} {st : CarveState}
    {r e : Nat}
    (h : (carveEdgeChoice rp st (some (TileKind.Corridor r))).1 = some e) :
    (carveEdgeChoice rp st
      (some (TileKind.Corridor r))).2.region_overfill_edges.lookup r
        = some e := by
  by_cases hr : (st.rand.gen 1 101).1 < rp.corridor_edge_overfill_chance
  · cases hl : st.region_overfill_edges.lookup r with
    | some v =>
      simp [carveEdgeChoice, hr, hl] at h ⊢
      omega
    | none =>
      simp [carveEdgeChoice, hr, hl, List.lookup] at h ⊢
      omega
  · simp [carveEdgeChoice, hr] at h

theorem runEdgeChoices_memo_mono (rp : RoomParams)
    (sels : List (Option TileKind)) :
    ∀ (st : CarveState) (q v : Nat),
      st.region_overfill_edges.lookup q = some v →
      (runEdgeChoices rp st sels).2.region_overfill_edges.lookup q = some v := by
  induction sels with
  | nil => intro st q v h; simpa [runEdgeChoices] using h
  | cons s rest ih =>
    intro st q v h
    rw [runEdgeChoices_cons]
    exact ih _ _ _ (carveEdgeChoice_memo_mono h)

theorem runEdgeChoices_out_in_final (rp : RoomParams)
    (sels : List (Option TileKind)) :
    ∀ (st : CarveState) (j r e : Nat),
      sels[j]? = some (some (TileKind.Corridor r)) →
      (runEdgeChoices rp st sels).1[j]? = some (some e) →
      (runEdgeChoices rp st sels).2.region_overfill_edges.lookup r = some e := by
  induction sels with
  | nil => intro st j r e hj _; simp at hj
  | cons s rest ih =>
    intro st j r e hj ho
    rw [runEdgeChoices_cons] at ho ⊢
    cases j with
    | zero =>
      simp only [List.getElem?_cons_zero, Option.some.injEq] at hj ho
      subst hj
      exact runEdgeChoices_memo_mono rp rest _ r e
        (carveEdgeChoice_corridor_sound ho)
    | succ j1 =>
      simp only [List.getElem?_cons_succ] at hj ho
      exact ih _ j1 r e hj ho

theorem pick_wall_kind_sound (wk : WallKinds) (region : Nat)
    (st : WallPickState) :
    ((pick_wall_kind wk true region st).2).mapped.lookup region
      = some ((pick_wall_kind wk true region st).1).2 := by
  cases hl : st.mapped.lookup region with
  | some v => simp [pick_wall_kind, hl]
  | none => simp [pick_wall_kind, hl, List.lookup]

theorem pick_wall_kind_mono {wk : WallKinds} {region q : Nat}
    {st : WallPickState} {v : Option Nat}
    (h : st.mapped.lookup q = some v) :
    ((pick_wall_kind wk true region st).2).mapped.lookup q = some v := by
  cases hl : st.mapped.lookup region with
  | some w => simpa [pick_wall_kind, hl] using h
  | none =>
    have hq : q ≠ region := by
      intro he; rw [he] at h; rw [h] at hl; exact Option.noConfusion hl
    have hbeq : (q == region) = false := beq_eq_false_iff_ne.2 hq
    simp [pick_wall_kind, hl, List.lookup, hbeq, h]

theorem runPicks_memo_mono (wk : WallKinds) (regions : List Nat) :
    ∀ (st : WallPickState) (q : Nat) (v : Option Nat),
      st.mapped.lookup q = some v →
      (runPicks wk true st regions).2.mapped.lookup q = some v := by
  induction regions with
  | nil => intro st q v h; simpa [runPicks] using h
  | cons r rest ih =>
    intro st q v h
    rw [runPicks_cons]
    exact ih _ _ _ (pick_wall_kind_mono h)

theorem runPicks_out_in_final (wk : WallKinds) (regions : List Nat) :
    ∀ (st : WallPickState) (j r : Nat) (v : Nat × Option Nat),
      regions[j]? = some r →
      (runPicks wk true st regions).1[j]? = some v →
      (runPicks wk true st regions).2.mapped.lookup r = some v.2 := by
  induction regions with
  | nil => intro st j r v hj _; simp at hj
  | cons q rest ih =>
    intro st j r v hj ho
    rw [runPicks_cons] at ho ⊢
    cases j with
    | zero =>
      simp only [List.getElem?_cons_zero, Option.some.injEq] at hj ho
      subst hj
      rw [← ho]
      exact runPicks_memo_mono wk rest _ _ _ (pick_wall_kind_sound wk q st)
    | succ j1 =>
      simp only [List.getElem?_cons_succ] at hj ho
      exact ih _ j1 r v hj ho

/-! ## Claim theorems -/

/-- C7: for any two adjacent corridor cells sharing a maze region, the
rough-edge decision on the shared boundary is identical from both sides:
`is_rough_edge` applies only to edges whose neighbor is a `Wall`, so the
edge of either cell that faces the other corridor cell is never classified
rough, whatever the edge choices are. -/
theorem corridor_shared_edge_never_rough (nbA nbB : Neighbors) (iA iB : Nat)
    (ecA ecB : Option Nat) (r : Nat)
    (hA : nbA.get iA = some (TileKind.Corridor r))
    (hB : nbB.get iB = some (TileKind.Corridor r)) :
    is_rough_edge nbA iA ecA = false ∧ is_rough_edge nbB iB ecB = false := by
  constructor <;> [skip; skip] <;> simp [is_rough_edge, hA, hB]

/-- C7 witness at a concrete pair of adjacent corridor cells of region 5. -/
theorem corridor_shared_edge_never_rough_witness :
    ((⟨some (TileKind.Corridor 5), none, some (TileKind.Corridor 5), none,
        none⟩ : Neighbors).get 2 = some (TileKind.Corridor 5)) ∧
    ((⟨some (TileKind.Corridor 5), none, none, none,
        some (TileKind.Corridor 5)⟩ : Neighbors).get 4
      = some (TileKind.Corridor 5)) ∧
    (is_rough_edge
        ⟨some (TileKind.Corridor 5), none, some (TileKind.Corridor 5), none,
          none⟩ 2 (some 2) = false ∧
      is_rough_edge
        ⟨some (TileKind.Corridor 5), none, none, none,
          some (TileKind.Corridor 5)⟩ 4 (some 4) = false) :=
  ⟨by decide, by decide,
    corridor_shared_edge_never_rough _ _ 2 4 (some 2) (some 4) 5
      (by decide) (by decide)⟩

/-- C10: every interior fine tile of a coarse cell block (coordinates
stepping by the grid size, strictly between the border offsets) receives an
unconditional `set_wall` with the given elevation and wall kind from
`carve_wall`, for every random state and every neighbor configuration, i.e.
for every value of the rough-edge decisions. -/
theorem carve_wall_center_unconditional (rp : RoomParams) (st : CarveState)
    (nb : Neighbors) (offset step mx : Point) (elev : Nat) (wk : Option Nat)
    (x y : Int)
    (hx : x ∈ stepByRange step.x (mx.x - step.x) step.x)
    (hy : y ∈ stepByRange step.y (mx.y - step.y) step.y) :
    (⟨x + offset.x, y + offset.y, elev, wk⟩ : SetWall)
      ∈ (carve_wall rp st nb offset step mx elev wk).1 := by
  have hC : (carve_wall rp st nb offset step mx elev wk).1
      = carveCalls nb (carveEdgeChoice rp st nb.n0).1 offset step mx elev wk := by
    cases h : carveEdgeChoice rp st nb.n0 with
    | mk a b => simp [carve_wall, h]
  rw [hC]
  unfold carveCalls
  exact List.mem_append.2
    (Or.inr (mem_foldr_append.2 ⟨y, hy, List.mem_map.2 ⟨x, hx, rfl⟩⟩))

/-- C10 witness at a concrete block: offset (10, 20), step (2, 2), block
size (6, 6), interior tile (2 + 10, 2 + 20). -/
theorem carve_wall_center_unconditional_witness :
    ((2 : Int) ∈ stepByRange 2 4 2) ∧ ((2 : Int) ∈ stepByRange 2 4 2) ∧
    (⟨2 + 10, 2 + 20, 1, some 0⟩ : SetWall)
      ∈ (carve_wall ⟨true, 50, 50⟩ ⟨⟨[0, 0]⟩, []⟩
          ⟨some (TileKind.Room 3), some TileKind.Wall, some TileKind.Wall,
            some TileKind.Wall, some TileKind.Wall⟩
          ⟨10, 20⟩ ⟨2, 2⟩ ⟨6, 6⟩ 1 (some 0)).1 :=
  ⟨by decide, by decide,
    carve_wall_center_unconditional ⟨true, 50, 50⟩ ⟨⟨[0, 0]⟩, []⟩
      ⟨some (TileKind.Room 3), some TileKind.Wall, some TileKind.Wall,
        some TileKind.Wall, some TileKind.Wall⟩
      ⟨10, 20⟩ ⟨2, 2⟩ ⟨6, 6⟩ 1 (some 0) 2 2 (by decide) (by decide)⟩

/-- C4 counterexample: for a room cell, when the per-occurrence roll
succeeds, the freshly picked edge index is not the only rough edge: here the
pick is edge 1, yet edge 2 (whose neighbor is a `Wall`) is also classified
rough, and its border tile is not carved. -/
theorem room_single_rough_edge_cex :
    ((carveEdgeChoice ⟨true, 0, 60⟩ ⟨⟨[0, 0]⟩, []⟩
        (some (TileKind.Room 3))).1 = some 1) ∧
    (is_rough_edge
        ⟨some (TileKind.Room 3), some TileKind.Wall, some TileKind.Wall,
          none, none⟩ 2
        (carveEdgeChoice ⟨true, 0, 60⟩ ⟨⟨[0, 0]⟩, []⟩
          (some (TileKind.Room 3))).1 = true) ∧
    (⟨4, 2, 1, some 0⟩ : SetWall)
      ∉ (carve_wall ⟨true, 0, 60⟩ ⟨⟨[0, 0]⟩, []⟩
          ⟨some (TileKind.Room 3), some TileKind.Wall, some TileKind.Wall,
            none, none⟩ ⟨0, 0⟩ ⟨2, 2⟩ ⟨6, 6⟩ 1 (some 0)).1 := by
  decide

/-- C4 (amended): for every occurrence of a room-region cell, `carve_wall`
independently rolls `gen(1, 101) < room_edge_overfill_chance`; on success it
draws a fresh random edge index in 1..4 for that occurrence (never touching
the per-region memo), but the drawn index is not used: every edge whose
neighbor is a `Wall` is left rough for that occurrence; on failure no edge
is rough. -/
theorem room_edge_choice_behavior (rp : RoomParams) (st : CarveState)
    (r idx : Nat) (nb : Neighbors) (hnb : nb.n0 = some (TileKind.Room r)) :
    ((carveEdgeChoice rp st nb.n0).2.region_overfill_edges
        = st.region_overfill_edges) ∧
    ((carveEdgeChoice rp st nb.n0).1.isSome
        ↔ (st.rand.gen 1 101).1 < rp.room_edge_overfill_chance) ∧
    ((st.rand.gen 1 101).1 < rp.room_edge_overfill_chance →
      (carveEdgeChoice rp st nb.n0).1
        = some (((st.rand.gen 1 101).2).gen 1 5).1) ∧
    (is_rough_edge nb idx (carveEdgeChoice rp st nb.n0).1 = true
        ↔ nb.get idx = some TileKind.Wall
          ∧ (carveEdgeChoice rp st nb.n0).1.isSome) := by
  rw [hnb]
  by_cases hr : (st.rand.gen 1 101).1 < rp.room_edge_overfill_chance
  · refine ⟨?_, ?_, ?_, ?_⟩
    · simp [carveEdgeChoice, hr]
    · simp [carveEdgeChoice, hr]
    · intro _; simp [carveEdgeChoice, hr]
    · by_cases hw : nb.get idx = some TileKind.Wall <;>
        simp [is_rough_edge, carveEdgeChoice, hr, hw, hnb]
  · refine ⟨?_, ?_, ?_, ?_⟩
    · simp [carveEdgeChoice, hr]
    · simp [carveEdgeChoice, hr]
    · intro h; exact absurd h hr
    · by_cases hw : nb.get idx = some TileKind.Wall <;>
        simp [is_rough_edge, carveEdgeChoice, hr, hw, hnb]

/-- C4 (amended) witness at a concrete room occurrence with a successful
roll. -/
theorem room_edge_choice_behavior_witness :
    (let rp : RoomParams := ⟨true, 0, 60⟩
     let st : CarveState := ⟨⟨[0, 0]⟩, []⟩
     let nb : Neighbors := ⟨some (TileKind.Room 3), some TileKind.Wall,
       some TileKind.Wall, none, none⟩
     nb.n0 = some (TileKind.Room 3) ∧
     (((carveEdgeChoice rp st nb.n0).2.region_overfill_edges
          = st.region_overfill_edges) ∧
      ((carveEdgeChoice rp st nb.n0).1.isSome
          ↔ (st.rand.gen 1 101).1 < rp.room_edge_overfill_chance) ∧
      ((st.rand.gen 1 101).1 < rp.room_edge_overfill_chance →
        (carveEdgeChoice rp st nb.n0).1
          = some (((st.rand.gen 1 101).2).gen 1 5).1) ∧
      (is_rough_edge nb 2 (carveEdgeChoice rp st nb.n0).1 = true
          ↔ nb.get 2 = some TileKind.Wall
            ∧ (carveEdgeChoice rp st nb.n0).1.isSome))) :=
  ⟨by decide,
    room_edge_choice_behavior ⟨true, 0, 60⟩ ⟨⟨[0, 0]⟩, []⟩ 3 2
      ⟨some (TileKind.Room 3), some TileKind.Wall, some TileKind.Wall, none,
        none⟩ (by decide)⟩

/-- C3 counterexample: the pre-selected memoized edge of a corridor region is
not left rough on every occurrence whose neighbor there is a `Wall`.  Region
7 memoizes edge 2 on a first occurrence whose overfill roll succeeds; on a
second occurrence of the same region the roll fails (raw draw 99 gives 100,
not below the chance 60), so although the neighbor at edge 2 is a `Wall`,
the border tile of edge 2 is carved rather than left rough. -/
theorem corridor_rough_every_occurrence_cex :
    (let rp : RoomParams := ⟨true, 60, 0⟩
     let st0 : CarveState := ⟨⟨[0, 1, 99]⟩, []⟩
     let nb : Neighbors := ⟨some (TileKind.Corridor 7), some TileKind.Wall,
       some TileKind.Wall, some TileKind.Wall, some TileKind.Wall⟩
     let c1 := carve_wall rp st0 nb ⟨0, 0⟩ ⟨2, 2⟩ ⟨6, 6⟩ 1 (some 0)
     let c2 := carve_wall rp c1.2 nb ⟨0, 0⟩ ⟨2, 2⟩ ⟨6, 6⟩ 1 (some 0)
     c1.2.region_overfill_edges.lookup 7 = some 2 ∧
     nb.get 2 = some TileKind.Wall ∧
     (⟨4, 2, 1, some 0⟩ : SetWall) ∈ c2.1) := by
  decide

/-- C3 (amended): each corridor region's overfill edge index is drawn at
most once and memoized in `region_overfill_edges`, so any two occurrences of
the same region that make an edge choice (their per-occurrence overfill roll
succeeded) choose the same edge index; and on one occurrence an edge is
rough exactly when the choice was made, names that edge, and the neighbor
there is a `Wall` — no other edge of a corridor cell is ever roughened. -/
theorem corridor_edge_memoized_consistent (rp : RoomParams) (st : CarveState)
    (sels : List (Option TileKind)) (i j r e e' : Nat)
    (nb : Neighbors) (idx r2 : Nat) (ec : Option Nat)
    (hi : sels[i]? = some (some (TileKind.Corridor r)))
    (hj : sels[j]? = some (some (TileKind.Corridor r)))
    (hoi : (runEdgeChoices rp st sels).1[i]? = some (some e))
    (hoj : (runEdgeChoices rp st sels).1[j]? = some (some e'))
    (hnb : nb.n0 = some (TileKind.Corridor r2)) :
    e = e' ∧
    (is_rough_edge nb idx ec = true
      ↔ nb.get idx = some TileKind.Wall ∧ ec = some idx) := by
  constructor
  · have h1 := runEdgeChoices_out_in_final rp sels st i r e hi hoi
    have h2 := runEdgeChoices_out_in_final rp sels st j r e' hj hoj
    exact Option.some.inj (h1.symm.trans h2)
  · by_cases hw : nb.get idx = some TileKind.Wall
    · cases ec with
      | none => simp [is_rough_edge, hnb, hw]
      | some c => simp [is_rough_edge, hnb, hw]
    · simp [is_rough_edge, hnb, hw]

/-- C3 (amended) witness: a concrete two-occurrence run of corridor region 7
whose rolls both succeed, with the memoized edge 2 chosen both times. -/
theorem corridor_edge_memoized_consistent_witness :
    (let rp : RoomParams := ⟨true, 60, 0⟩
     let st : CarveState := ⟨⟨[0, 1, 3]⟩, []⟩
     let sels : List (Option TileKind) :=
       [some (TileKind.Corridor 7), some (TileKind.Corridor 7)]
     let nb : Neighbors := ⟨some (TileKind.Corridor 7), some TileKind.Wall,
       some TileKind.Wall, none, none⟩
     sels[0]? = some (some (TileKind.Corridor 7)) ∧
     sels[1]? = some (some (TileKind.Corridor 7)) ∧
     (runEdgeChoices rp st sels).1[0]? = some (some 2) ∧
     (runEdgeChoices rp st sels).1[1]? = some (some 2) ∧
     nb.n0 = some (TileKind.Corridor 7) ∧
     ((2 : Nat) = 2 ∧
      (is_rough_edge nb 2 (some 2) = true
        ↔ nb.get 2 = some TileKind.Wall ∧ (some 2 : Option Nat) = some 2))) :=
  ⟨by decide, by decide, by decide, by decide, by decide,
    corridor_edge_memoized_consistent ⟨true, 60, 0⟩ ⟨⟨[0, 1, 3]⟩, []⟩
      [some (TileKind.Corridor 7), some (TileKind.Corridor 7)] 0 1 7 2 2
      ⟨some (TileKind.Corridor 7), some TileKind.Wall, some TileKind.Wall,
        none, none⟩ 2 7 (some 2)
      (by decide) (by decide) (by decide) (by decide) (by decide)⟩

/-- C2: in invert mode `pick_wall_kind` draws the wall kind at most once per
region id: a call whose region is already in the `mapped` memo returns the
memoized value and leaves the whole state (including the random source)
untouched; a first visit draws once via `WallKinds::pick_index` and
memoizes; and in any threaded sequence of calls, every two outputs for the
same region carry the same wall kind. -/
theorem pick_wall_kind_memoized (wk : WallKinds) (st0 st : WallPickState)
    (region : Nat) (v : Option Nat) (regions : List Nat)
    (i j r : Nat) (vi vj : Nat × Option Nat)
    (hri : regions[i]? = some r) (hrj : regions[j]? = some r)
    (hoi : (runPicks wk true st0 regions).1[i]? = some vi)
    (hoj : (runPicks wk true st0 regions).1[j]? = some vj) :
    (st.mapped.lookup region = some v →
      pick_wall_kind wk true region st = ((1, v), st)) ∧
    (st.mapped.lookup region = none →
      pick_wall_kind wk true region st
        = ((1, (wk.pick_index st.rand).1),
           ⟨(wk.pick_index st.rand).2,
            (region, (wk.pick_index st.rand).1) :: st.mapped⟩)) ∧
    vi.2 = vj.2 := by
  refine ⟨?_, ?_, ?_⟩
  · intro h; simp [pick_wall_kind, h]
  · intro h
    cases hp : wk.pick_index st.rand with
    | mk a b => simp [pick_wall_kind, h, hp]
  · have h1 := runPicks_out_in_final wk regions st0 i r vi hri hoi
    have h2 := runPicks_out_in_final wk regions st0 j r vj hrj hoj
    exact Option.some.inj (h1.symm.trans h2)

/-- C2 witness: a concrete two-visit run of region 4 (first visit draws kind
0, second returns the memo), plus a concrete memo-hit state for region 9. -/
theorem pick_wall_kind_memoized_witness :
    (let wk : WallKinds := ⟨⟨[(5, 1)]⟩⟩
     let st0 : WallPickState := ⟨⟨[0, 9]⟩, []⟩
     let st : WallPickState := ⟨⟨[7]⟩, [(9, some 3)]⟩
     let regions : List Nat := [4, 4]
     regions[0]? = some 4 ∧ regions[1]? = some 4 ∧
     (runPicks wk true st0 regions).1[0]? = some (1, some 0) ∧
     (runPicks wk true st0 regions).1[1]? = some (1, some 0) ∧
     ((st.mapped.lookup 9 = some (some 3) →
        pick_wall_kind wk true 9 st = ((1, some 3), st)) ∧
      (st.mapped.lookup 9 = none →
        pick_wall_kind wk true 9 st
          = ((1, (wk.pick_index st.rand).1),
             ⟨(wk.pick_index st.rand).2,
              (9, (wk.pick_index st.rand).1) :: st.mapped⟩)) ∧
      ((1, some 0) : Nat × Option Nat).2 = ((1, some 0) : Nat × Option Nat).2)) :=
  ⟨by decide, by decide, by decide, by decide,
    pick_wall_kind_memoized ⟨⟨[(5, 1)]⟩⟩ ⟨⟨[0, 9]⟩, []⟩ ⟨⟨[7]⟩, [(9, some 3)]⟩
      9 (some 3) [4, 4] 0 1 4 (1, some 0) (1, some 0)
      (by decide) (by decide) (by decide) (by decide)⟩

theorem layerFill_filter (width height : Int) (ps : List (Point × Nat)) :
    ∀ acc, layerFill width height ps acc
      = layerFill width height
          (ps.filter fun pt =>
            decide (pt.1.x < width) && decide (pt.1.y < height)) acc := by
  induction ps with
  | nil => intro acc; rfl
  | cons pt rest ih =>
    intro acc
    obtain ⟨p, t⟩ := pt
    by_cases hk : p.x < width ∧ p.y < height
    · have hkeep : (decide (p.x < width) && decide (p.y < height)) = true := by
        simp [hk.1, hk.2]
      simp only [List.filter_cons, hkeep, if_true]
      show layerFill width height ((p, t) :: rest) acc
        = layerFill width height ((p, t) :: _) acc
      simp only [layerFill]
      exact ih _
    · have hcond : p.x ≥ width ∨ p.y ≥ height := by omega
      have hd : (decide (p.x < width) && decide (p.y < height)) = false := by
        rcases hcond with h | h
        · have hnot : ¬p.x < width := by omega
          simp [hnot]
        · have hnot : ¬p.y < height := by omega
          simp [hnot]
      simp only [List.filter_cons, hd, Bool.false_eq_true, if_false]
      have hstep : layerFill width height ((p, t) :: rest) acc
          = layerFill width height rest acc := by
        cases acc with
        | none => simp [layerFill]
        | some tiles => simp [layerFill, hcond]
      rw [hstep, ih]

theorem wrap32_eq_of_range {v : Int} (h1 : -(2 ^ 31) ≤ v) (h2 : v < 2 ^ 31) :
    wrap32 v = v := by
  unfold wrap32
  have he : (v + 2 ^ 31) % 2 ^ 32 = v + 2 ^ 31 :=
    Int.emod_eq_of_lt (by omega) (by omega)
  omega

theorem layerFill_isSome (width height : Int)
    (hwh31 : width * height < 2 ^ 31) :
    ∀ (qs : List (Point × Nat)) (tiles : List (List Nat)),
      (∀ pt ∈ qs, 0 ≤ pt.1.x ∧ pt.1.x < width ∧ 0 ≤ pt.1.y ∧ pt.1.y < height) →
      tiles.length = castUsize (wrap32 (width * height)) →
      (layerFill width height qs (some tiles)).isSome = true := by
  intro qs
  induction qs with
  | nil => intro tiles _ _; simp [layerFill]
  | cons pt rest ih =>
    intro tiles hb hlen
    obtain ⟨p, t⟩ := pt
    obtain ⟨hx0, hxw, hy0, hyh⟩ := hb (p, t) (List.mem_cons_self _ _)
    replace hx0 : 0 ≤ p.x := hx0
    replace hxw : p.x < width := hxw
    replace hy0 : 0 ≤ p.y := hy0
    replace hyh : p.y < height := hyh
    have hw0 : 0 < width := by omega
    have hh0 : 0 < height := by omega
    have hyw : 0 ≤ p.y * width := mul_nonneg hy0 hw0.le
    have hiv : 0 ≤ p.x + p.y * width := by
      generalize p.y * width = m at hyw ⊢
      omega
    have h2 : p.x + p.y * width < width * height := by
      nlinarith [mul_nonneg (show (0 : Int) ≤ height - 1 - p.y by omega)
        (show (0 : Int) ≤ width by omega)]
    have hwh0 : 0 ≤ width * height := mul_nonneg hw0.le hh0.le
    have hr1 : wrap32 (p.y * width) = p.y * width := by
      refine wrap32_eq_of_range ?_ ?_
      · generalize p.y * width = m at hyw ⊢; omega
      · generalize hA : p.x + p.y * width = A at h2 ⊢
        generalize hB : width * height = B at h2 hwh31 ⊢
        omega
    have hr2 : wrap32 (p.x + p.y * width) = p.x + p.y * width := by
      refine wrap32_eq_of_range ?_ ?_
      · generalize p.x + p.y * width = A at hiv ⊢; omega
      · generalize hA : p.x + p.y * width = A at h2 hiv ⊢
        generalize hB : width * height = B at h2 hwh31 ⊢
        omega
    have hr3 : wrap32 (width * height) = width * height := by
      refine wrap32_eq_of_range ?_ ?_
      · generalize width * height = B at hwh0 ⊢; omega
      · exact hwh31
    have hc1 : castUsize (wrap32 (p.x + wrap32 (p.y * width)))
        = (p.x + p.y * width).toNat := by
      rw [hr1, hr2]
      unfold castUsize
      refine congrArg Int.toNat (Int.emod_eq_of_lt hiv ?_)
      generalize hA : p.x + p.y * width = A at h2 hiv ⊢
      generalize hB : width * height = B at h2 hwh31 ⊢
      omega
    have hc2 : castUsize (wrap32 (width * height)) = (width * height).toNat := by
      rw [hr3]
      unfold castUsize
      refine congrArg Int.toNat (Int.emod_eq_of_lt hwh0 ?_)
      generalize width * height = B at hwh0 hwh31 ⊢
      omega
    have hidx : castUsize (wrap32 (p.x + wrap32 (p.y * width)))
        < tiles.length := by
      rw [hlen, hc1, hc2]
      generalize hA : p.x + p.y * width = A at h2 hiv ⊢
      generalize hB : width * height = B at h2 ⊢
      omega
    have hnc : ¬(p.x ≥ width ∨ p.y ≥ height) := by omega
    show (layerFill width height ((p, t) :: rest) (some tiles)).isSome = true
    simp only [layerFill, hnc, if_false, hidx, dif_pos]
    exact ih _ (fun q hq => hb q (List.mem_cons_of_mem _ hq))
      (by rw [List.length_set]; exact hlen)

/-- C6 counterexample: a tile placement with negative coordinates is not
clipped by `create_layers`.  At width 2, height 2 the placement (-1, 0)
passes the `p.x >= width || p.y >= height` test; its index `(p.x + p.y *
width) as usize` wraps to 2^64 - 1 and layer construction fails (the vector
indexing panic, modelled as `none`) instead of dropping the tile; and the
placement (-1, 1) is silently stored at cell index 1, i.e. at coordinates
(1, 0), rather than being dropped. -/
theorem create_layers_clip_negative_cex :
    create_layers_one 2 2 [(⟨-1, 0⟩, 7)] = none ∧
    create_layers_one 2 2 [(⟨-1, 1⟩, 7)] = some [[], [7], [], []] := by
  decide

/-- C6 (amended): `create_layers` drops exactly the placements with
`x ≥ width` or `y ≥ height`; when every placement coordinate is nonnegative
and the dimensions are nonnegative with `width * height` inside the `i32`
range (so none of the source's `i32` index or allocation arithmetic
overflows), every placement that survives the clip satisfies
`0 ≤ x < width` and `0 ≤ y < height` and layer construction never fails.
Placements with negative coordinates, and dimensions whose product
overflows `i32`, are outside this guarantee. -/
theorem create_layers_clips_high_side (width height : Int)
    (ps : List (Point × Nat))
    (hw0 : 0 ≤ width) (hh0 : 0 ≤ height)
    (hwh31 : width * height < 2 ^ 31)
    (hn : ∀ pt ∈ ps, 0 ≤ pt.1.x ∧ 0 ≤ pt.1.y) :
    create_layers_one width height ps
      = create_layers_one width height
          (ps.filter fun pt =>
            decide (pt.1.x < width) && decide (pt.1.y < height)) ∧
    (∀ pt ∈ ps.filter (fun pt =>
        decide (pt.1.x < width) && decide (pt.1.y < height)),
      0 ≤ pt.1.x ∧ pt.1.x < width ∧ 0 ≤ pt.1.y ∧ pt.1.y < height) ∧
    (create_layers_one width height ps).isSome = true := by
  have hmem : ∀ pt ∈ ps.filter (fun pt =>
      decide (pt.1.x < width) && decide (pt.1.y < height)),
      0 ≤ pt.1.x ∧ pt.1.x < width ∧ 0 ≤ pt.1.y ∧ pt.1.y < height := by
    intro pt hpt
    obtain ⟨hin, hpred⟩ := List.mem_filter.1 hpt
    obtain ⟨h1, h2⟩ := hn pt hin
    simp only [Bool.and_eq_true, decide_eq_true_eq] at hpred
    exact ⟨h1, hpred.1, h2, hpred.2⟩
  refine ⟨layerFill_filter width height ps _, hmem, ?_⟩
  unfold create_layers_one
  rw [layerFill_filter width height ps]
  exact layerFill_isSome width height hwh31 _ _ hmem
    (by rw [List.length_replicate])

/-- C6 (amended) witness: a concrete placement list with one in-bounds tile
and one tile beyond the width that gets clipped. -/
theorem create_layers_clips_high_side_witness :
    (let ps : List (Point × Nat) := [(⟨0, 0⟩, 5), (⟨4, 1⟩, 6), (⟨2, 1⟩, 7)]
     ((0 : Int) ≤ 3) ∧ ((0 : Int) ≤ 2) ∧ ((3 * 2 : Int) < 2 ^ 31) ∧
     (∀ pt ∈ ps, 0 ≤ pt.1.x ∧ 0 ≤ pt.1.y) ∧
     (create_layers_one 3 2 ps
        = create_layers_one 3 2
            (ps.filter fun pt =>
              decide (pt.1.x < 3) && decide (pt.1.y < 2)) ∧
      (∀ pt ∈ ps.filter (fun pt =>
          decide (pt.1.x < 3) && decide (pt.1.y < 2)),
        0 ≤ pt.1.x ∧ pt.1.x < 3 ∧ 0 ≤ pt.1.y ∧ pt.1.y < 2) ∧
      (create_layers_one 3 2 ps).isSome = true)) :=
  ⟨by decide, by decide, by decide, by decide,
    create_layers_clips_high_side 3 2
      [(⟨0, 0⟩, 5), (⟨4, 1⟩, 6), (⟨2, 1⟩, 7)]
      (by decide) (by decide) (by decide) (by decide)⟩

theorem corner1_mem (nb : Neighbors) (ec : Option Nat) (offset step mx : Point)
    (elev : Nat) (wk : Option Nat) (hsx : 0 < step.x) (hsy : 0 < step.y)
    (hmx : step.x < mx.x) (hmy : step.y < mx.y) :
    ((⟨offset.x + mx.x - step.x, offset.y, elev, wk⟩ : SetWall)
        ∈ carveCalls nb ec offset step mx elev wk)
      ↔ is_rough_edge nb 1 ec = false ∧ is_rough_edge nb 2 ec = false := by
  unfold carveCalls
  constructor
  · intro hmem
    simp only [List.mem_append] at hmem
    rcases hmem with ((((((((h | h) | h) | h) | h) | h) | h) | h) | h)
    · rcases mem_ite_nil.1 h with ⟨-, hm⟩
      rcases List.mem_map.1 hm with ⟨x, hxm, he⟩
      have hb := stepByRange_bounds hsx hxm
      simp only [SetWall.mk.injEq, and_true, true_and] at he
      omega
    · rcases mem_ite_nil.1 h with ⟨-, hm⟩
      rcases List.mem_map.1 hm with ⟨y, hym, he⟩
      have hb := stepByRange_bounds hsy hym
      simp only [SetWall.mk.injEq, and_true, true_and] at he
      omega
    · rcases mem_ite_nil.1 h with ⟨-, hm⟩
      rcases List.mem_map.1 hm with ⟨x, hxm, he⟩
      have hb := stepByRange_bounds hsx hxm
      simp only [SetWall.mk.injEq, and_true, true_and] at he
      omega
    · rcases mem_ite_nil.1 h with ⟨-, hm⟩
      rcases List.mem_map.1 hm with ⟨y, hym, he⟩
      have hb := stepByRange_bounds hsy hym
      simp only [SetWall.mk.injEq, and_true, true_and] at he
      omega
    · rcases mem_ite_nil.1 h with ⟨hR, -⟩
      constructor
      · cases h1 : is_rough_edge nb 1 ec <;> simp_all
      · cases h2 : is_rough_edge nb 2 ec <;> simp_all
    · rcases mem_ite_nil.1 h with ⟨-, hm⟩
      rw [List.mem_singleton] at hm
      simp only [SetWall.mk.injEq, and_true, true_and] at hm
      omega
    · rcases mem_ite_nil.1 h with ⟨-, hm⟩
      rw [List.mem_singleton] at hm
      simp only [SetWall.mk.injEq, and_true, true_and] at hm
      omega
    · rcases mem_ite_nil.1 h with ⟨-, hm⟩
      rw [List.mem_singleton] at hm
      simp only [SetWall.mk.injEq, and_true, true_and] at hm
      omega
    · rcases mem_foldr_append.1 h with ⟨y, hym, hm⟩
      rcases List.mem_map.1 hm with ⟨x, hxm, he⟩
      have hbx := stepByRange_bounds hsx hxm
      have hby := stepByRange_bounds hsy hym
      simp only [SetWall.mk.injEq, and_true, true_and] at he
      omega
  · rintro ⟨h1, h2⟩
    refine List.mem_append.2 (Or.inl ?_)
    refine List.mem_append.2 (Or.inl ?_)
    refine List.mem_append.2 (Or.inl ?_)
    refine List.mem_append.2 (Or.inl ?_)
    refine List.mem_append.2 (Or.inr ?_)
    refine mem_ite_nil.2 ⟨?_, List.mem_singleton.2 rfl⟩
    simp [h1, h2]

theorem corner2_mem (nb : Neighbors) (ec : Option Nat) (offset step mx : Point)
    (elev : Nat) (wk : Option Nat) (hsx : 0 < step.x) (hsy : 0 < step.y)
    (hmx : step.x < mx.x) (hmy : step.y < mx.y) :
    ((⟨offset.x + mx.x - step.x, offset.y + mx.y - step.y, elev, wk⟩ : SetWall)
        ∈ carveCalls nb ec offset step mx elev wk)
      ↔ is_rough_edge nb 2 ec = false ∧ is_rough_edge nb 3 ec = false := by
  unfold carveCalls
  constructor
  · intro hmem
    simp only [List.mem_append] at hmem
    rcases hmem with ((((((((h | h) | h) | h) | h) | h) | h) | h) | h)
    · rcases mem_ite_nil.1 h with ⟨-, hm⟩
      rcases List.mem_map.1 hm with ⟨x, hxm, he⟩
      have hb := stepByRange_bounds hsx hxm
      simp only [SetWall.mk.injEq, and_true, true_and] at he
      omega
    · rcases mem_ite_nil.1 h with ⟨-, hm⟩
      rcases List.mem_map.1 hm with ⟨y, hym, he⟩
      have hb := stepByRange_bounds hsy hym
      simp only [SetWall.mk.injEq, and_true, true_and] at he
      omega
    · rcases mem_ite_nil.1 h with ⟨-, hm⟩
      rcases List.mem_map.1 hm with ⟨x, hxm, he⟩
      have hb := stepByRange_bounds hsx hxm
      simp only [SetWall.mk.injEq, and_true, true_and] at he
      omega
    · rcases mem_ite_nil.1 h with ⟨-, hm⟩
      rcases List.mem_map.1 hm with ⟨y, hym, he⟩
      have hb := stepByRange_bounds hsy hym
      simp only [SetWall.mk.injEq, and_true, true_and] at he
      omega
    · rcases mem_ite_nil.1 h with ⟨-, hm⟩
      rw [List.mem_singleton] at hm
      simp only [SetWall.mk.injEq, and_true, true_and] at hm
      omega
    · rcases mem_ite_nil.1 h with ⟨hR, -⟩
      constructor
      · cases h1 : is_rough_edge nb 2 ec <;> simp_all
      · cases h2 : is_rough_edge nb 3 ec <;> simp_all
    · rcases mem_ite_nil.1 h with ⟨-, hm⟩
      rw [List.mem_singleton] at hm
      simp only [SetWall.mk.injEq, and_true, true_and] at hm
      omega
    · rcases mem_ite_nil.1 h with ⟨-, hm⟩
      rw [List.mem_singleton] at hm
      simp only [SetWall.mk.injEq, and_true, true_and] at hm
      omega
    · rcases mem_foldr_append.1 h with ⟨y, hym, hm⟩
      rcases List.mem_map.1 hm with ⟨x, hxm, he⟩
      have hbx := stepByRange_bounds hsx hxm
      have hby := stepByRange_bounds hsy hym
      simp only [SetWall.mk.injEq, and_true, true_and] at he
      omega
  · rintro ⟨h1, h2⟩
    refine List.mem_append.2 (Or.inl ?_)
    refine List.mem_append.2 (Or.inl ?_)
    refine List.mem_append.2 (Or.inl ?_)
    refine List.mem_append.2 (Or.inr ?_)
    refine mem_ite_nil.2 ⟨?_, List.mem_singleton.2 rfl⟩
    simp [h1, h2]

theorem corner3_mem (nb : Neighbors) (ec : Option Nat) (offset step mx : Point)
    (elev : Nat) (wk : Option Nat) (hsx : 0 < step.x) (hsy : 0 < step.y)
    (hmx : step.x < mx.x) (hmy : step.y < mx.y) :
    ((⟨offset.x, offset.y + mx.y - step.y, elev, wk⟩ : SetWall)
        ∈ carveCalls nb ec offset step mx elev wk)
      ↔ is_rough_edge nb 3 ec = false ∧ is_rough_edge nb 4 ec = false := by
  unfold carveCalls
  constructor
  · intro hmem
    simp only [List.mem_append] at hmem
    rcases hmem with ((((((((h | h) | h) | h) | h) | h) | h) | h) | h)
    · rcases mem_ite_nil.1 h with ⟨-, hm⟩
      rcases List.mem_map.1 hm with ⟨x, hxm, he⟩
      have hb := stepByRange_bounds hsx hxm
      simp only [SetWall.mk.injEq, and_true, true_and] at he
      omega
    · rcases mem_ite_nil.1 h with ⟨-, hm⟩
      rcases List.mem_map.1 hm with ⟨y, hym, he⟩
      have hb := stepByRange_bounds hsy hym
      simp only [SetWall.mk.injEq, and_true, true_and] at he
      omega
    · rcases mem_ite_nil.1 h with ⟨-, hm⟩
      rcases List.mem_map.1 hm with ⟨x, hxm, he⟩
      have hb := stepByRange_bounds hsx hxm
      simp only [SetWall.mk.injEq, and_true, true_and] at he
      omega
    · rcases mem_ite_nil.1 h with ⟨-, hm⟩
      rcases List.mem_map.1 hm with ⟨y, hym, he⟩
      have hb := stepByRange_bounds hsy hym
      simp only [SetWall.mk.injEq, and_true, true_and] at he
      omega
    · rcases mem_ite_nil.1 h with ⟨-, hm⟩
      rw [List.mem_singleton] at hm
      simp only [SetWall.mk.injEq, and_true, true_and] at hm
      omega
    · rcases mem_ite_nil.1 h with ⟨-, hm⟩
      rw [List.mem_singleton] at hm
      simp only [SetWall.mk.injEq, and_true, true_and] at hm
      omega
    · rcases mem_ite_nil.1 h with ⟨hR, -⟩
      constructor
      · cases h1 : is_rough_edge nb 3 ec <;> simp_all
      · cases h2 : is_rough_edge nb 4 ec <;> simp_all
    · rcases mem_ite_nil.1 h with ⟨-, hm⟩
      rw [List.mem_singleton] at hm
      simp only [SetWall.mk.injEq, and_true, true_and] at hm
      omega
    · rcases mem_foldr_append.1 h with ⟨y, hym, hm⟩
      rcases List.mem_map.1 hm with ⟨x, hxm, he⟩
      have hbx := stepByRange_bounds hsx hxm
      have hby := stepByRange_bounds hsy hym
      simp only [SetWall.mk.injEq, and_true, true_and] at he
      omega
  · rintro ⟨h1, h2⟩
    refine List.mem_append.2 (Or.inl ?_)
    refine List.mem_append.2 (Or.inl ?_)
    refine List.mem_append.2 (Or.inr ?_)
    refine mem_ite_nil.2 ⟨?_, List.mem_singleton.2 rfl⟩
    simp [h1, h2]

theorem corner4_mem (nb : Neighbors) (ec : Option Nat) (offset step mx : Point)
    (elev : Nat) (wk : Option Nat) (hsx : 0 < step.x) (hsy : 0 < step.y)
    (hmx : step.x < mx.x) (hmy : step.y < mx.y) :
    ((⟨offset.x, offset.y, elev, wk⟩ : SetWall)
        ∈ carveCalls nb ec offset step mx elev wk)
      ↔ is_rough_edge nb 4 ec = false ∧ is_rough_edge nb 1 ec = false := by
  unfold carveCalls
  constructor
  · intro hmem
    simp only [List.mem_append] at hmem
    rcases hmem with ((((((((h | h) | h) | h) | h) | h) | h) | h) | h)
    · rcases mem_ite_nil.1 h with ⟨-, hm⟩
      rcases List.mem_map.1 hm with ⟨x, hxm, he⟩
      have hb := stepByRange_bounds hsx hxm
      simp only [SetWall.mk.injEq, and_true, true_and] at he
      omega
    · rcases mem_ite_nil.1 h with ⟨-, hm⟩
      rcases List.mem_map.1 hm with ⟨y, hym, he⟩
      have hb := stepByRange_bounds hsy hym
      simp only [SetWall.mk.injEq, and_true, true_and] at he
      omega
    · rcases mem_ite_nil.1 h with ⟨-, hm⟩
      rcases List.mem_map.1 hm with ⟨x, hxm, he⟩
      have hb := stepByRange_bounds hsx hxm
      simp only [SetWall.mk.injEq, and_true, true_and] at he
      omega
    · rcases mem_ite_nil.1 h with ⟨-, hm⟩
      rcases List.mem_map.1 hm with ⟨y, hym, he⟩
      have hb := stepByRange_bounds hsy hym
      simp only [SetWall.mk.injEq, and_true, true_and] at he
      omega
    · rcases mem_ite_nil.1 h with ⟨-, hm⟩
      rw [List.mem_singleton] at hm
      simp only [SetWall.mk.injEq, and_true, true_and] at hm
      omega
    · rcases mem_ite_nil.1 h with ⟨-, hm⟩
      rw [List.mem_singleton] at hm
      simp only [SetWall.mk.injEq, and_true, true_and] at hm
      omega
    · rcases mem_ite_nil.1 h with ⟨-, hm⟩
      rw [List.mem_singleton] at hm
      simp only [SetWall.mk.injEq, and_true, true_and] at hm
      omega
    · rcases mem_ite_nil.1 h with ⟨hR, -⟩
      constructor
      · cases h1 : is_rough_edge nb 4 ec <;> simp_all
      · cases h2 : is_rough_edge nb 1 ec <;> simp_all
    · rcases mem_foldr_append.1 h with ⟨y, hym, hm⟩
      rcases List.mem_map.1 hm with ⟨x, hxm, he⟩
      have hbx := stepByRange_bounds hsx hxm
      have hby := stepByRange_bounds hsy hym
      simp only [SetWall.mk.injEq, and_true, true_and] at he
      omega
  · rintro ⟨h1, h2⟩
    refine List.mem_append.2 (Or.inl ?_)
    refine List.mem_append.2 (Or.inr ?_)
    refine mem_ite_nil.2 ⟨?_, List.mem_singleton.2 rfl⟩
    simp [h1, h2]

/-- C5: in `carve_wall`, each of the four corner tiles of a coarse cell
block receives a `set_wall` call if and only if both edges adjacent to that
corner are not rough; a rough adjacent edge leaves the corner uncarved. -/
theorem carve_wall_corners (rp : RoomParams) (st : CarveState) (nb : Neighbors)
    (offset step mx : Point) (elev : Nat) (wk : Option Nat)
    (hsx : 0 < step.x) (hsy : 0 < step.y)
    (hmx : step.x < mx.x) (hmy : step.y < mx.y) :
    (((⟨offset.x + mx.x - step.x, offset.y, elev, wk⟩ : SetWall)
        ∈ (carve_wall rp st nb offset step mx elev wk).1)
      ↔ is_rough_edge nb 1 (carveEdgeChoice rp st nb.n0).1 = false
        ∧ is_rough_edge nb 2 (carveEdgeChoice rp st nb.n0).1 = false) ∧
    (((⟨offset.x + mx.x - step.x, offset.y + mx.y - step.y, elev, wk⟩ : SetWall)
        ∈ (carve_wall rp st nb offset step mx elev wk).1)
      ↔ is_rough_edge nb 2 (carveEdgeChoice rp st nb.n0).1 = false
        ∧ is_rough_edge nb 3 (carveEdgeChoice rp st nb.n0).1 = false) ∧
    (((⟨offset.x, offset.y + mx.y - step.y, elev, wk⟩ : SetWall)
        ∈ (carve_wall rp st nb offset step mx elev wk).1)
      ↔ is_rough_edge nb 3 (carveEdgeChoice rp st nb.n0).1 = false
        ∧ is_rough_edge nb 4 (carveEdgeChoice rp st nb.n0).1 = false) ∧
    (((⟨offset.x, offset.y, elev, wk⟩ : SetWall)
        ∈ (carve_wall rp st nb offset step mx elev wk).1)
      ↔ is_rough_edge nb 4 (carveEdgeChoice rp st nb.n0).1 = false
        ∧ is_rough_edge nb 1 (carveEdgeChoice rp st nb.n0).1 = false) := by
  have hC : (carve_wall rp st nb offset step mx elev wk).1
      = carveCalls nb (carveEdgeChoice rp st nb.n0).1 offset step mx elev wk := by
    cases h : carveEdgeChoice rp st nb.n0 with
    | mk a b => simp [carve_wall, h]
  rw [hC]
  exact ⟨corner1_mem nb _ offset step mx elev wk hsx hsy hmx hmy,
    corner2_mem nb _ offset step mx elev wk hsx hsy hmx hmy,
    corner3_mem nb _ offset step mx elev wk hsx hsy hmx hmy,
    corner4_mem nb _ offset step mx elev wk hsx hsy hmx hmy⟩

/-- C5 witness at a concrete block with no rough edges (all four corners
carved). -/
theorem carve_wall_corners_witness :
    (let rp : RoomParams := ⟨true, 0, 0⟩
     let st : CarveState := ⟨⟨[]⟩, []⟩
     let nb : Neighbors := ⟨some (TileKind.Corridor 1), some TileKind.Wall,
       none, none, none⟩
     ((0 : Int) < 2) ∧ ((0 : Int) < 2) ∧ ((2 : Int) < 6) ∧ ((2 : Int) < 6) ∧
     ((((⟨0 + 6 - 2, 20, 1, some 0⟩ : SetWall)
          ∈ (carve_wall rp st nb ⟨0, 20⟩ ⟨2, 2⟩ ⟨6, 6⟩ 1 (some 0)).1)
        ↔ is_rough_edge nb 1 (carveEdgeChoice rp st nb.n0).1 = false
          ∧ is_rough_edge nb 2 (carveEdgeChoice rp st nb.n0).1 = false) ∧
      (((⟨0 + 6 - 2, 20 + 6 - 2, 1, some 0⟩ : SetWall)
          ∈ (carve_wall rp st nb ⟨0, 20⟩ ⟨2, 2⟩ ⟨6, 6⟩ 1 (some 0)).1)
        ↔ is_rough_edge nb 2 (carveEdgeChoice rp st nb.n0).1 = false
          ∧ is_rough_edge nb 3 (carveEdgeChoice rp st nb.n0).1 = false) ∧
      (((⟨0, 20 + 6 - 2, 1, some 0⟩ : SetWall)
          ∈ (carve_wall rp st nb ⟨0, 20⟩ ⟨2, 2⟩ ⟨6, 6⟩ 1 (some 0)).1)
        ↔ is_rough_edge nb 3 (carveEdgeChoice rp st nb.n0).1 = false
          ∧ is_rough_edge nb 4 (carveEdgeChoice rp st nb.n0).1 = false) ∧
      (((⟨0, 20, 1, some 0⟩ : SetWall)
          ∈ (carve_wall rp st nb ⟨0, 20⟩ ⟨2, 2⟩ ⟨6, 6⟩ 1 (some 0)).1)
        ↔ is_rough_edge nb 4 (carveEdgeChoice rp st nb.n0).1 = false
          ∧ is_rough_edge nb 1 (carveEdgeChoice rp st nb.n0).1 = false))) :=
  ⟨by decide, by decide, by decide, by decide,
    carve_wall_corners ⟨true, 0, 0⟩ ⟨⟨[]⟩, []⟩
      ⟨some (TileKind.Corridor 1), some TileKind.Wall, none, none, none⟩
      ⟨0, 20⟩ ⟨2, 2⟩ ⟨6, 6⟩ 1 (some 0)
      (by decide) (by decide) (by decide) (by decide)⟩

theorem WeightedList_new_error {α : Type} (ids : List (String × Nat))
    (kind : String) (resolver : String → Option α) (e : GenError)
    (h : WeightedList.new ids kind resolver = .error e) :
    ∃ id, e = GenError.unresolvedReference kind id ∧ resolver id = none := by
  induction ids with
  | nil => simp [WeightedList.new] at h
  | cons q rest ih =>
    obtain ⟨id, w⟩ := q
    cases hr : resolver id with
    | none =>
      refine ⟨id, ?_, hr⟩
      simp [WeightedList.new, hr] at h
      exact h.symm
    | some v =>
      cases hw : WeightedList.new rest kind resolver with
      | error e2 =>
        simp [WeightedList.new, hr, hw] at h
        subst h
        exact ih hw
      | ok tl => simp [WeightedList.new, hr, hw] at h

theorem WeightedList_new_ok_resolves {α : Type} (ids : List (String × Nat))
    (kind : String) (resolver : String → Option α) :
    ∀ (wl : WeightedList α), WeightedList.new ids kind resolver = .ok wl →
      ∀ p ∈ ids, ∃ v, resolver p.1 = some v := by
  induction ids with
  | nil => intro wl _ p hp; simp at hp
  | cons q rest ih =>
    intro wl h p hp
    obtain ⟨id, w⟩ := q
    cases hr : resolver id with
    | none => simp [WeightedList.new, hr] at h
    | some v =>
      cases hw : WeightedList.new rest kind resolver with
      | error e2 => simp [WeightedList.new, hr, hw] at h
      | ok tl =>
        rcases List.mem_cons.1 hp with rfl | hp2
        · exact ⟨v, hr⟩
        · exact ih tl hw p hp2

/-- C8: `AreaGenerator::new` resolves every named reference of the builder at
construction time; if any resolution fails no `AreaGenerator` is constructed
and the result is an `UnresolvedReference` error naming an id that is indeed
missing from the module.  In particular a prop reference id absent from the
module makes `new` fail, so `generate()` is never reachable. -/
theorem new_fails_on_missing_prop (b : GeneratorBuilder) (m : Module)
    (pid : String) (w : Nat)
    (hmem : (pid, w) ∈ b.props) (hmiss : m.prop pid = none) :
    (∀ a, AreaGenerator.new b m ≠ .ok a) ∧
    ∃ kind mid, AreaGenerator.new b m
        = .error (GenError.unresolvedReference kind mid)
      ∧ moduleResolves m kind mid = none := by
  cases h1 : WeightedList.new b.wall_kinds "WallKind" m.wallKind with
  | error e =>
    have hval : AreaGenerator.new b m = .error e := by
      simp only [AreaGenerator.new, h1]; rfl
    obtain ⟨id, he, hres⟩ := WeightedList_new_error _ _ _ _ h1
    subst he
    refine ⟨fun a ha => by rw [hval] at ha; exact Except.noConfusion ha,
      "WallKind", id, hval, ?_⟩
    simp [moduleResolves, hres]
  | ok l1 =>
    cases h2 : WeightedList.new b.terrain "Terrain" m.terrainKind with
    | error e =>
      have hval : AreaGenerator.new b m = .error e := by
        simp only [AreaGenerator.new, h1, h2]; rfl
      obtain ⟨id, he, hres⟩ := WeightedList_new_error _ _ _ _ h2
      subst he
      refine ⟨fun a ha => by rw [hval] at ha; exact Except.noConfusion ha,
        "Terrain", id, hval, ?_⟩
      simp [moduleResolves, hres]
    | ok l2 =>
      cases h3 : WeightedList.new b.props "Prop" m.prop with
      | error e =>
        have hval : AreaGenerator.new b m = .error e := by
          simp only [AreaGenerator.new, h1, h2, h3]; rfl
        obtain ⟨id, he, hres⟩ := WeightedList_new_error _ _ _ _ h3
        subst he
        refine ⟨fun a ha => by rw [hval] at ha; exact Except.noConfusion ha,
          "Prop", id, hval, ?_⟩
        simp [moduleResolves, hres]
      | ok l3 =>
        exfalso
        obtain ⟨v, hv⟩ :=
          WeightedList_new_ok_resolves b.props "Prop" m.prop l3 h3 (pid, w) hmem
        rw [hmiss] at hv
        exact Option.noConfusion hv

/-- C8 witness: a module that knows the wall kind and the terrain of the
builder but not its prop id "ghost". -/
theorem new_fails_on_missing_prop_witness :
    (let m : Module := ⟨fun s => if s = "stone" then some 0 else none,
      fun s => if s = "grass" then some 0 else none,
      fun _ => none, fun _ => none, fun _ => none, fun _ => none⟩
     let b : GeneratorBuilder := ⟨"gen", 2, 2, ⟨false, 0, 0⟩,
       [("stone", 1)], [("grass", 1)], [("ghost", 2)], [], [], []⟩
     (("ghost", 2) ∈ b.props) ∧ m.prop "ghost" = none ∧
     ((∀ a, AreaGenerator.new b m ≠ .ok a) ∧
      ∃ kind mid, AreaGenerator.new b m
          = .error (GenError.unresolvedReference kind mid)
        ∧ moduleResolves m kind mid = none)) :=
  ⟨by decide, rfl,
    new_fails_on_missing_prop
      ⟨"gen", 2, 2, ⟨false, 0, 0⟩,
        [("stone", 1)], [("grass", 1)], [("ghost", 2)], [], [], []⟩
      ⟨fun s => if s = "stone" then some 0 else none,
        fun s => if s = "grass" then some 0 else none,
        fun _ => none, fun _ => none, fun _ => none, fun _ => none⟩
      "ghost" 2 (by decide) rfl⟩

theorem forceOpen_cases (m : Maze) (p : Point) :
    m.forceOpen p = m ∨
    ((0 ≤ p.x ∧ p.x < (m.width : Int) ∧ 0 ≤ p.y ∧ p.y < (m.height : Int)) ∧
      m.cells[p.x.toNat + p.y.toNat * m.width]? = some TileKind.Wall ∧
      m.forceOpen p = ⟨m.width, m.height,
        m.cells.set (p.x.toNat + p.y.toNat * m.width) (TileKind.Corridor 0)⟩) := by
  unfold Maze.forceOpen
  by_cases hb : 0 ≤ p.x ∧ p.x < (m.width : Int) ∧ 0 ≤ p.y ∧ p.y < (m.height : Int)
  · by_cases hc : m.cells[p.x.toNat + p.y.toNat * m.width]? = some TileKind.Wall
    · exact Or.inr ⟨hb, hc, by rw [if_pos hb]; exact if_pos hc⟩
    · exact Or.inl (by rw [if_pos hb]; exact if_neg hc)
  · exact Or.inl (if_neg hb)

theorem forceOpen_not_wall_self (m : Maze) (p : Point) :
    (m.forceOpen p).cell p.x p.y ≠ some TileKind.Wall := by
  by_cases hb : 0 ≤ p.x ∧ p.x < (m.width : Int) ∧ 0 ≤ p.y ∧ p.y < (m.height : Int)
  · by_cases hc : m.cells[p.x.toNat + p.y.toNat * m.width]? = some TileKind.Wall
    · have he : m.forceOpen p = ⟨m.width, m.height,
          m.cells.set (p.x.toNat + p.y.toNat * m.width) (TileKind.Corridor 0)⟩ := by
        unfold Maze.forceOpen
        rw [if_pos hb]; exact if_pos hc
      have hlt : p.x.toNat + p.y.toNat * m.width < m.cells.length :=
        (List.getElem?_eq_some.1 hc).1
      rw [he]
      unfold Maze.cell
      rw [if_pos hb, List.getElem?_set_self hlt]
      simp
    · have he : m.forceOpen p = m := by
        unfold Maze.forceOpen
        rw [if_pos hb]; exact if_neg hc
      rw [he]
      unfold Maze.cell
      rw [if_pos hb]
      exact hc
  · have he : m.forceOpen p = m := by
      unfold Maze.forceOpen
      exact if_neg hb
    rw [he]
    unfold Maze.cell
    rw [if_neg hb]
    exact Option.noConfusion

theorem forceOpen_preserves_not_wall (m : Maze) (p q : Point)
    (h : m.cell q.x q.y ≠ some TileKind.Wall) :
    (m.forceOpen p).cell q.x q.y ≠ some TileKind.Wall := by
  rcases forceOpen_cases m p with he | ⟨hb, hc, he⟩
  · rw [he]; exact h
  · rw [he]
    unfold Maze.cell at h ⊢
    by_cases hqb : 0 ≤ q.x ∧ q.x < (m.width : Int) ∧ 0 ≤ q.y ∧ q.y < (m.height : Int)
    · rw [if_pos hqb] at h ⊢
      rw [List.getElem?_set]
      by_cases hij : p.x.toNat + p.y.toNat * m.width
          = q.x.toNat + q.y.toNat * m.width
      · rw [if_pos hij]
        have hlt : p.x.toNat + p.y.toNat * m.width < m.cells.length :=
          (List.getElem?_eq_some.1 hc).1
        rw [if_pos hlt]
        simp
      · rw [if_neg hij]
        exact h
    · rw [if_neg hqb] at h ⊢
      exact h

theorem foldl_forceOpen_preserves (locs : List Point) :
    ∀ (m : Maze) (q : Point), m.cell q.x q.y ≠ some TileKind.Wall →
      (locs.foldl (fun mz p => mz.forceOpen p) m).cell q.x q.y
        ≠ some TileKind.Wall := by
  induction locs with
  | nil => intro m q h; exact h
  | cons p rest ih =>
    intro m q h
    exact ih _ _ (forceOpen_preserves_not_wall m p q h)

theorem foldl_forceOpen_open (locs : List Point) :
    ∀ (m : Maze) (p : Point), p ∈ locs →
      (locs.foldl (fun mz p => mz.forceOpen p) m).cell p.x p.y
        ≠ some TileKind.Wall := by
  induction locs with
  | nil => intro m p h; simp at h
  | cons q rest ih =>
    intro m p hp
    rcases List.mem_cons.1 hp with rfl | hp2
    · exact foldl_forceOpen_preserves rest _ p (forceOpen_not_wall_self m p)
    · exact ih _ p hp2

/-- C9: every transition's from-point is converted to coarse region
coordinates and collected into the open locations handed to
`Maze::generate`, and after maze generation the cell at each such anchor
coordinate is never classified as `Wall`. -/
theorem transition_anchors_never_wall (gm : GenModel)
    (rand : ReproducibleRandom) (w h : Nat)
    (transitions : List TransitionBuilder) (t : TransitionBuilder)
    (ht : t ∈ transitions) :
    ((Maze.new w h).generate rand (openLocs gm transitions)).1.cell
        (gm.to_region_coords t.fromLoc.x t.fromLoc.y).1
        (gm.to_region_coords t.fromLoc.x t.fromLoc.y).2
      ≠ some TileKind.Wall := by
  unfold Maze.generate
  cases hf : fillCells ((Maze.new w h).width * (Maze.new w h).height) rand with
  | mk cs r1 =>
    simp only [hf]
    have hp : (⟨(gm.to_region_coords t.fromLoc.x t.fromLoc.y).1,
        (gm.to_region_coords t.fromLoc.x t.fromLoc.y).2⟩ : Point)
        ∈ openLocs gm transitions := by
      unfold openLocs
      exact List.mem_map.2 ⟨t, ht, rfl⟩
    exact foldl_forceOpen_open (openLocs gm transitions) _ _ hp

/-- C9 witness: a concrete transition at fine point (5, 3) with grid size 2,
anchoring the coarse cell (2, 1). -/
theorem transition_anchors_never_wall_witness :
    (let gm := GenModel.new 8 8 ⟨[1, 2]⟩ 2 2
     let ts : List TransitionBuilder := [⟨⟨5, 3⟩⟩]
     ((⟨⟨5, 3⟩⟩ : TransitionBuilder) ∈ ts) ∧
     ((Maze.new 4 4).generate ⟨[0, 1, 2, 0, 1, 2, 0, 1]⟩
          (openLocs gm ts)).1.cell
        (gm.to_region_coords 5 3).1 (gm.to_region_coords 5 3).2
      ≠ some TileKind.Wall) :=
  ⟨by decide,
    transition_anchors_never_wall (GenModel.new 8 8 ⟨[1, 2]⟩ 2 2)
      ⟨[0, 1, 2, 0, 1, 2, 0, 1]⟩ 4 4 [⟨⟨5, 3⟩⟩] ⟨⟨5, 3⟩⟩ (by decide)⟩

/-- C1: `generate` is deterministic: for a fixed random-source state and
fixed input parameters, two calls produce identical `GeneratorOutput` (same
tile layers, same placed props and encounters in the same order) — the whole
pipeline threads one explicit random source and per-call state with no other
source of variation. -/
theorem generate_deterministic (g : AreaGenerator) (width height : Int)
    (r1 r2 : ReproducibleRandom) (params : GeneratorParams)
    (transitions : List TransitionBuilder)
    (tiles_to_add : List (Tile × Int × Int)) (h : r1 = r2) :
    g.generate width height r1 params transitions tiles_to_add
      = g.generate width height r2 params transitions tiles_to_add := by
  rw [h]

/-- C1 witness: the same seed stream evaluated twice on a concrete area. -/
theorem generate_deterministic_witness :
    (let g : AreaGenerator := ⟨"g", ⟨⟨[(0, 1)]⟩⟩, 2, 2, ⟨true, 50, 50⟩,
       ⟨[(0, 1)]⟩, ⟨[(0, 1)]⟩, ⟨[(0, 1)]⟩, ⟨[(0, 1)]⟩, ⟨[(0, 1)]⟩⟩
     ((⟨[3, 1, 4, 1, 5]⟩ : ReproducibleRandom) = ⟨[3, 1, 4, 1, 5]⟩) ∧
     g.generate 8 8 ⟨[3, 1, 4, 1, 5]⟩ ⟨1, 1⟩ [⟨⟨2, 2⟩⟩] [(⟨5, "tiles"⟩, 1, 1)]
       = g.generate 8 8 ⟨[3, 1, 4, 1, 5]⟩ ⟨1, 1⟩ [⟨⟨2, 2⟩⟩]
           [(⟨5, "tiles"⟩, 1, 1)]) :=
  ⟨rfl,
    generate_deterministic
      ⟨"g", ⟨⟨[(0, 1)]⟩⟩, 2, 2, ⟨true, 50, 50⟩, ⟨[(0, 1)]⟩, ⟨[(0, 1)]⟩,
        ⟨[(0, 1)]⟩, ⟨[(0, 1)]⟩, ⟨[(0, 1)]⟩⟩
      8 8 ⟨[3, 1, 4, 1, 5]⟩ ⟨[3, 1, 4, 1, 5]⟩ ⟨1, 1⟩ [⟨⟨2, 2⟩⟩]
      [(⟨5, "tiles"⟩, 1, 1)] rfl⟩

end Sulis
